import Mathlib

/-!
Shallow embedding of `src/vmod/vmod_acceptnorm.c` (Accept-header
normalization VMOD).  C strings are modelled as `List Char` (the string
contents; C strings contain no NUL).  The C `double` quality values are
modelled as exact rationals `ℚ`; `strtod` is modelled on its decimal
grammar (optional sign, digits, optional fraction, optional exponent),
and `%.1f` formatting as round-half-even to one decimal digit.  libc
`strtod` additionally converts `inf`/`infinity`/`nan` and `0x` hex-float
forms; NaN and the infinities are not representable in `ℚ`, so every
theorem below whose hypotheses range over raw quality-value texts
carries a `decimalFaithful`-based hypothesis confining it to the inputs
on which this model agrees with libc, and the behaviour of the quality
clamp on NaN is modelled separately on the `CDouble` domain near the end
of the file.  A NULL string argument and an empty string argument are
both modelled as `[]`, which is exactly how the C code treats them
(`s == NULL || *s == '\0'`).
-/

namespace AcceptNorm

/-- C `isspace` in the default locale (space, \t, \n, \v, \f, \r). -/
def isWs (c : Char) : Bool :=
  c = ' ' ∨ c = '\t' ∨ c = '\n' ∨ c = Char.ofNat 11 ∨ c = Char.ofNat 12 ∨ c = '\r'

/-- C `isdigit`. -/
def isDig (c : Char) : Bool :=
  48 ≤ c.toNat ∧ c.toNat ≤ 57

/-- C `tolower` in the default locale: only ASCII A-Z change. -/
def toLowerAscii (c : Char) : Char :=
  if 65 ≤ c.toNat ∧ c.toNat ≤ 90 then Char.ofNat (c.toNat + 32) else c

/-- The lower-casing loop `for (t = type; *t; t++) *t = tolower(*t)`. -/
def lowerStr (l : List Char) : List Char :=
  l.map toLowerAscii

/-- `while (end > start && isspace(*(end-1))) end--`: drop trailing whitespace. -/
def trimTrailWs (l : List Char) : List Char :=
  (l.reverse.dropWhile isWs).reverse

/-- Value of a decimal digit string, most significant first. -/
def digitsToNat (l : List Char) : Nat :=
  l.foldl (fun a c => 10 * a + (c.toNat - 48)) 0

/-- Optional leading sign of a number. -/
def dropSign (l : List Char) : Bool × List Char :=
  if l.head? = some '-' then (true, l.tail)
  else if l.head? = some '+' then (false, l.tail)
  else (false, l)

/-- Fractional part: a `.` followed by digits. -/
def fracSplit (l : List Char) : List Char × List Char :=
  if l.head? = some '.' then (l.tail.takeWhile isDig, l.tail.dropWhile isDig)
  else ([], l)

/-- Front end of `strtod`: leading whitespace, optional sign, integer digits,
fractional digits, and the remainder of the input after them. -/
def strtodScan (l : List Char) : Bool × List Char × List Char × List Char :=
  let p0 := l.dropWhile isWs
  let sp := dropSign p0
  let ds := sp.2.takeWhile isDig
  let fr := fracSplit (sp.2.dropWhile isDig)
  (sp.1, ds, fr.1, fr.2)

/-- Exponent part of `strtod` (`e`/`E`, optional sign, digits); consumed only
when at least one exponent digit is present. -/
def parseExpPart (l : List Char) : Int × List Char :=
  if l.head? = some 'e' ∨ l.head? = some 'E' then
    let sp := dropSign l.tail
    let eds := sp.2.takeWhile isDig
    if eds = [] then (0, l)
    else ((if sp.1 then -(digitsToNat eds : Int) else (digitsToNat eds : Int)),
          sp.2.dropWhile isDig)
  else (0, l)

/-- C hexadecimal digit. -/
def isHexDig (c : Char) : Bool :=
  isDig c ∨ (97 ≤ (toLowerAscii c).toNat ∧ (toLowerAscii c).toNat ≤ 102)

/-- Case-insensitive check that the input begins with the given
(lower-case) pattern. -/
def isPfxCI : List Char → List Char → Bool
  | [], _ => true
  | _ :: _, [] => false
  | c :: cs, d :: ds => toLowerAscii d = c ∧ isPfxCI cs ds

/-- First character after an optional point is a hex digit. -/
def hexAfterPoint : List Char → Bool
  | [] => false
  | d :: _ => isHexDig d

/-- The hex-float significand after `0x` has at least one hex digit
(possibly after a point). -/
def hexSigStart : List Char → Bool
  | [] => false
  | d :: r => isHexDig d ∨ (d = '.' ∧ hexAfterPoint r)

/-- Does the input begin with a C99 hexadecimal-float subject sequence
(`0x`/`0X` followed by at least one hex digit, possibly after a point)?
Without such a digit libc falls back to converting just the `0`, exactly
as the decimal model does. -/
def isHexStart (l : List Char) : Bool :=
  match l with
  | '0' :: c :: r => (c = 'x' ∨ c = 'X') ∧ hexSigStart r
  | _ => false

/-- `decimalFaithful v` holds when the value text fed to `strtod` is not
one of the forms that libc converts but the decimal model below does not:
an `inf`/`infinity`/`nan` form or a hexadecimal float (each after optional
whitespace and sign).  On such texts the decimal model computes the same
conversion and the same `endptr` as C99 `strtod` (up to the usual
exact-rational reading of the decimal value). -/
def decimalFaithful (v : List Char) : Bool :=
  !(isPfxCI "inf".data (dropSign (v.dropWhile isWs)).2 ||
    isPfxCI "nan".data (dropSign (v.dropWhile isWs)).2 ||
    isHexStart (dropSign (v.dropWhile isWs)).2)

/-- `strtodNoConv l` holds when libc `strtod` performs no conversion on
`l` in the C99 sense: after the optional whitespace and sign there is no
integer and no fractional decimal digit (which by itself also rules out
every hexadecimal-float form, whose subject sequence starts with the
digit `0`), and the token is not an `inf`/`infinity`/`nan` form, which
libc would convert.  On these inputs `strtod` returns 0 and leaves
`endptr` at the original input. -/
def strtodNoConv (l : List Char) : Prop :=
  (strtodScan l).2.1 = [] ∧ (strtodScan l).2.2.1 = [] ∧ decimalFaithful l = true

instance (l : List Char) : Decidable (strtodNoConv l) := by
  unfold strtodNoConv; infer_instance

/-- C `strtod` restricted to its decimal grammar: returns the parsed value
and the rest of the input (`endptr`); on no conversion returns `0` and the
original input pointer.  libc also converts `inf`/`infinity`/`nan` (not
representable in `ℚ`) and hexadecimal floats; `decimalFaithful` above
recognizes the value texts on which this model agrees with libc, and the
theorems below that quantify over raw value texts restrict themselves to
that domain. -/
def strtod (l : List Char) : ℚ × List Char :=
  let s := strtodScan l
  if s.2.1 = [] ∧ s.2.2.1 = [] then (0, l)
  else
    let mant : ℚ :=
      (digitsToNat s.2.1 : ℚ) + (digitsToNat s.2.2.1 : ℚ) / (10 : ℚ) ^ s.2.2.1.length
    let ep := parseExpPart s.2.2.2
    ((if s.1 then -mant else mant) * (10 : ℚ) ^ ep.1, ep.2)

theorem length_dropWhile_le (p : Char → Bool) (l : List Char) :
    (l.dropWhile p).length ≤ l.length := by
  induction l with
  | nil => simp
  | cons c r ih =>
    by_cases h : p c
    · rw [List.dropWhile_cons_of_pos h]; simp only [List.length_cons]; omega
    · rw [List.dropWhile_cons_of_neg h]

theorem length_tail_le (l : List Char) : l.tail.length ≤ l.length := by
  cases l <;> simp

theorem dropSign_length (l : List Char) : (dropSign l).2.length ≤ l.length := by
  unfold dropSign
  split_ifs <;> simp [length_tail_le]

theorem fracSplit_length (l : List Char) : (fracSplit l).2.length ≤ l.length := by
  unfold fracSplit
  split_ifs
  · exact Nat.le_trans (length_dropWhile_le _ _) (length_tail_le _)
  · exact Nat.le_refl _

theorem strtodScan_length (l : List Char) :
    (strtodScan l).2.2.2.length ≤ l.length := by
  unfold strtodScan
  refine Nat.le_trans (fracSplit_length _) ?_
  refine Nat.le_trans (length_dropWhile_le _ _) ?_
  exact Nat.le_trans (dropSign_length _) (length_dropWhile_le _ _)

theorem parseExpPart_length (l : List Char) :
    (parseExpPart l).2.length ≤ l.length := by
  unfold parseExpPart
  dsimp only
  split_ifs <;>
    first
      | exact Nat.le_refl _
      | exact Nat.le_trans (length_dropWhile_le _ _)
          (Nat.le_trans (dropSign_length _) (length_tail_le _))

theorem strtod_length (l : List Char) : (strtod l).2.length ≤ l.length := by
  unfold strtod
  dsimp only
  split_ifs <;>
    first
      | exact Nat.le_refl _
      | exact Nat.le_trans (parseExpPart_length _) (strtodScan_length _)

/-- Token class of a parameter name: `*p && *p != '=' && *p != ';' && *p != ','`. -/
def pnChar (c : Char) : Bool :=
  decide (c ≠ '=' ∧ c ≠ ';' ∧ c ≠ ',')

/-- Token class of a parameter value / media-type token:
`*p && *p != ';' && *p != ','`. -/
def pvChar (c : Char) : Bool :=
  decide (c ≠ ';' ∧ c ≠ ',')

/-- Clamping of a parsed quality: `if (q < 0) q = 0; if (q > 1) q = 1;`. -/
def clampQ (v : ℚ) : ℚ :=
  if v < 0 then 0 else if 1 < v then 1 else v

theorem ppChain1 (t : List Char) :
    (strtod ((((t.dropWhile isWs).dropWhile pnChar).tail).dropWhile isWs)).2.length ≤
      t.length := by
  refine Nat.le_trans (strtod_length _) ?_
  refine Nat.le_trans (length_dropWhile_le _ _) ?_
  refine Nat.le_trans (length_tail_le _) ?_
  exact Nat.le_trans (length_dropWhile_le _ _) (length_dropWhile_le _ _)

theorem ppChain2 (t : List Char) :
    ((((t.dropWhile isWs).dropWhile pnChar).tail).dropWhile pvChar).length ≤ t.length := by
  refine Nat.le_trans (length_dropWhile_le _ _) ?_
  refine Nat.le_trans (length_tail_le _) ?_
  exact Nat.le_trans (length_dropWhile_le _ _) (length_dropWhile_le _ _)

theorem ppChain3 (t : List Char) :
    ((t.dropWhile isWs).dropWhile pnChar).length ≤ t.length :=
  Nat.le_trans (length_dropWhile_le _ _) (length_dropWhile_le _ _)

theorem tail_length_lt_of_head? {l : List Char} {c : Char} (h : l.head? = some c) :
    l.tail.length < l.length := by
  cases l with
  | nil => simp at h
  | cons a r => simp

/-- The parameter loop of `parse_media_type` (`while (*p == ';') { ... }`),
carrying the current quality.  Only a parameter whose name has length 1 and
lower-cases to `q` updates the quality, via `strtod` and clamping; other
parameters have their `=value` skipped. -/
def parseParams (l : List Char) (q : ℚ) : List Char × ℚ :=
  if h : l.head? = some ';' then
    let p := l.tail.dropWhile isWs
    let name := p.takeWhile pnChar
    let p1 := p.dropWhile pnChar
    if h1 : p1.head? = some '=' then
      if name.length = 1 ∧ toLowerAscii name.headI = 'q' then
        let p2 := p1.tail.dropWhile isWs
        let r := strtod p2
        parseParams r.2 (clampQ r.1)
      else
        parseParams (p1.tail.dropWhile pvChar) q
    else
      parseParams p1 q
  else (l, q)
termination_by l.length
decreasing_by
  · exact Nat.lt_of_le_of_lt (ppChain1 l.tail) (tail_length_lt_of_head? h)
  · exact Nat.lt_of_le_of_lt (ppChain2 l.tail) (tail_length_lt_of_head? h)
  · exact Nat.lt_of_le_of_lt (ppChain3 l.tail) (tail_length_lt_of_head? h)

/-- Faithfulness guard on the exact path of `parseParams`: holds when every
`q=` value text that the parameter loop feeds to `strtod` satisfies
`decimalFaithful`, i.e. is not an `inf`/`infinity`/`nan` or hexadecimal-float
form.  On inputs accepted by this guard every `strtod` call of the C loop is
on a text where the decimal model computes libc's conversion and `endptr`,
so the model's walk coincides with the program's. -/
def parseParamsChk (l : List Char) : Bool :=
  if h : l.head? = some ';' then
    let p := l.tail.dropWhile isWs
    let name := p.takeWhile pnChar
    let p1 := p.dropWhile pnChar
    if h1 : p1.head? = some '=' then
      if name.length = 1 ∧ toLowerAscii name.headI = 'q' then
        let p2 := p1.tail.dropWhile isWs
        decimalFaithful p2 && parseParamsChk (strtod p2).2
      else
        parseParamsChk (p1.tail.dropWhile pvChar)
    else
      parseParamsChk p1
  else true
termination_by l.length
decreasing_by
  · exact Nat.lt_of_le_of_lt (ppChain1 l.tail) (tail_length_lt_of_head? h)
  · exact Nat.lt_of_le_of_lt (ppChain2 l.tail) (tail_length_lt_of_head? h)
  · exact Nat.lt_of_le_of_lt (ppChain3 l.tail) (tail_length_lt_of_head? h)

/-- `parse_media_type`: one Accept-header entry.  Returns `none` when the
input or the (trimmed) type token is empty, which makes the caller stop;
otherwise returns the rest of the input, the lower-cased trimmed type
token, and the quality (default 1). -/
def parseMediaType (l : List Char) : Option (List Char × List Char × ℚ) :=
  let p := l.dropWhile isWs
  let tok := p.takeWhile pvChar
  let ty := trimTrailWs tok
  if ty = [] then none
  else
    let pq := parseParams (p.dropWhile pvChar) 1
    let r2 := pq.1.dropWhile isWs
    let r3 := if r2.head? = some ',' then r2.tail else r2
    some (r3, lowerStr ty, pq.2)

/-- One media-type entry of a parsed Accept list. -/
structure MT where
  ty : List Char
  q : ℚ
deriving DecidableEq, Repr

/-- The loop of `parse_accept_header`: the fuel is `MAX_MEDIA_TYPES - count`,
because each iteration adds exactly one entry (`count < MAX_MEDIA_TYPES` is
the loop bound); a `none` from `parse_media_type` breaks out. -/
def parseAcceptGo : Nat → List Char → List MT
  | 0, _ => []
  | fuel + 1, l =>
    if l = [] then []
    else
      match parseMediaType l with
      | none => []
      | some (rest, ty, q) => ⟨ty, q⟩ :: parseAcceptGo fuel rest

/-- `parse_accept_header` with `MAX_MEDIA_TYPES = 64`. -/
def parseAccept (h : List Char) : List MT :=
  parseAcceptGo 64 h

/-- Faithfulness guard on the exact path of `parseAcceptGo`: runs
`parseParamsChk` on the same parameter text that `parseMediaType` hands to
the parameter loop, for each entry the header loop parses. -/
def parseAcceptChkGo : Nat → List Char → Bool
  | 0, _ => true
  | fuel + 1, l =>
    if l = [] then true
    else
      match parseMediaType l with
      | none => true
      | some (rest, _, _) =>
        parseParamsChk ((l.dropWhile isWs).dropWhile pvChar) &&
          parseAcceptChkGo fuel rest

/-- `parseAcceptFaithful h` holds when every `q=` value text encountered
while parsing the header `h` is a plain decimal numeral in the sense of
`decimalFaithful`: on such headers the rational model of the parse is
faithful to the program, libc `strtod` agreeing with the decimal model at
every call the C code makes. -/
def parseAcceptFaithful (h : List Char) : Bool :=
  parseAcceptChkGo 64 h

theorem commaProgress (l : List Char) (hp : l.dropWhile isWs ≠ []) :
    (if ((l.dropWhile isWs).dropWhile (fun c => decide (c ≠ ','))).head? = some ','
     then ((l.dropWhile isWs).dropWhile (fun c => decide (c ≠ ','))).tail
     else (l.dropWhile isWs).dropWhile (fun c => decide (c ≠ ','))).length < l.length := by
  cases hpp : l.dropWhile isWs with
  | nil => exact absurd hpp hp
  | cons c r =>
    have hl2 : r.length + 1 ≤ l.length := by
      have h' := length_dropWhile_le isWs l
      rw [hpp] at h'
      simpa using h'
    by_cases hc : c = ','
    · subst hc
      rw [List.dropWhile_cons_of_neg (by simp)]
      split_ifs with hh
      · simp only [List.tail_cons]
        omega
      · simp at hh
    · rw [List.dropWhile_cons_of_pos (by simp [hc])]
      have h2 := length_dropWhile_le (fun c => decide (c ≠ ',')) r
      have h3 := length_tail_le (r.dropWhile (fun c => decide (c ≠ ',')))
      split_ifs <;> omega

/-- The loop of `parse_preferred_types`: splits on commas, trims,
lower-cases; an empty token is skipped without incrementing the count
(`max_types` is 64 at both call sites). -/
def parsePreferredGo (cnt : Nat) (l : List Char) : List (List Char) :=
  if 64 ≤ cnt then []
  else
    let p := l.dropWhile isWs
    if hp : p = [] then []
    else
      let tok := p.takeWhile (fun c => decide (c ≠ ','))
      let rest := p.dropWhile (fun c => decide (c ≠ ','))
      let ty := trimTrailWs tok
      let rest1 := if rest.head? = some ',' then rest.tail else rest
      if ty = [] then parsePreferredGo cnt rest1
      else lowerStr ty :: parsePreferredGo (cnt + 1) rest1
termination_by l.length
decreasing_by
  · exact commaProgress l hp
  · exact commaProgress l hp

/-- `parse_preferred_types`. -/
def parsePreferred (pref : List Char) : List (List Char) :=
  parsePreferredGo 0 pref

/-- The literal `"*/*"`. -/
def starStar : List Char :=
  ['*', '/', '*']

/-- `media_type_match`: `*/*` matches everything; `main/*` matches any
concrete type with the same main component; otherwise exact equality;
when either side lacks a `/`, exact equality. -/
def mediaTypeMatch (pat ty : List Char) : Bool :=
  if pat = starStar then true
  else if ('/' ∈ pat) ∧ ('/' ∈ ty) then
    if (pat.dropWhile (fun c => decide (c ≠ '/'))).tail = ['*'] then
      decide (pat.takeWhile (fun c => decide (c ≠ '/')) =
              ty.takeWhile (fun c => decide (c ≠ '/')))
    else decide (pat = ty)
  else decide (pat = ty)

/-- The `type_prefix` buffer of `get_quality_for_type`: `main/*` when the
concrete type has a `/` and its main component is shorter than
`sizeof(type_prefix) - 2 = 254` bytes; empty otherwise. -/
def mkPfx (ty : List Char) : List Char :=
  if '/' ∈ ty then
    let main := ty.takeWhile (fun c => decide (c ≠ '/'))
    if main.length < 254 then main ++ ['/', '*'] else []
  else []

/-- The scan loop of `get_quality_for_type`: exact match returns at once;
`*/*` and `type_prefix` matches overwrite their running quality (sentinel
-1); at the end the `main/*` quality wins over the `*/*` quality, else
whichever is set, else 0. -/
def gqLoop (ty pfx : List Char) : List MT → ℚ → ℚ → ℚ
  | [], wq, twq => if 0 ≤ twq then twq else if 0 ≤ wq then wq else 0
  | e :: r, wq, twq =>
    if e.ty = ty then e.q
    else if e.ty = starStar then gqLoop ty pfx r e.q twq
    else if pfx ≠ [] ∧ e.ty = pfx then gqLoop ty pfx r wq e.q
    else gqLoop ty pfx r wq twq

/-- `get_quality_for_type`. -/
def getQualityForType (st : List MT) (ty : List Char) : ℚ :=
  gqLoop ty (mkPfx ty) st (-1) (-1)

/-- Floor of a rational, computed with floor division (`den` is positive). -/
def ratFloor (q : ℚ) : Int :=
  Int.fdiv q.num q.den

/-- `%.1f`-rounding of `10*q`: round to nearest integer, ties to even
(the double is assumed exactly representable; all theorems below use
values where the double and the rational round identically). -/
def rhe10 (q : ℚ) : Int :=
  let f := ratFloor (10 * q)
  let d := 10 * q - f
  if d < 1 / 2 then f
  else if 1 / 2 < d then f + 1
  else if f % 2 = 0 then f else f + 1

/-- Decimal digits of a natural number, most significant first. -/
def natDecGo : Nat → Nat → List Char
  | 0, _ => []
  | fuel + 1, n =>
    if n < 10 then [Char.ofNat (48 + n)]
    else natDecGo fuel (n / 10) ++ [Char.ofNat (48 + n % 10)]

/-- Decimal representation of a natural number. -/
def natDec (n : Nat) : List Char :=
  natDecGo (n + 1) n

/-- `%.1f` applied to a quality. -/
def fmt1 (q : ℚ) : List Char :=
  let n := rhe10 q
  (if n < 0 then ['-'] else []) ++
    natDec (n.natAbs / 10) ++ '.' :: [Char.ofNat (48 + n.natAbs % 10)]

/-- One serialized entry of `build_accept_string`: the type, then `;q=%.1f`
exactly when the quality is strictly below 1. -/
def buildEntry (e : MT) : List Char :=
  e.ty ++ (if e.q < 1 then ';' :: 'q' :: '=' :: fmt1 e.q else [])

/-- `build_accept_string`: entries joined by `", "`; empty state gives `""`
(the `WS_Copy` allocation is modelled as always succeeding). -/
def buildAcceptString : List MT → List Char
  | [] => []
  | [e] => buildEntry e
  | e :: r => buildEntry e ++ ',' :: ' ' :: buildAcceptString r

/-- `strcmp(a,b) <= 0` for NUL-free byte strings. -/
def strLe : List Char → List Char → Bool
  | [], _ => true
  | _ :: _, [] => false
  | a :: as, b :: bs => if a = b then strLe as bs else decide (a < b)

/-- The `media_type_cmp` order: quality descending, then type ascending. -/
def mtLe (a b : MT) : Prop :=
  b.q < a.q ∨ (a.q = b.q ∧ strLe a.ty b.ty = true)

instance : DecidableRel mtLe := by
  unfold mtLe; infer_instance

/-- `sort_media_types` via `qsort`: since `media_type_cmp` returns 0 only on
fully identical entries, the sorted list is unique, so any sort by `mtLe`
gives the observable C result (the `count > 1` guard is a no-op). -/
def sortMTs (l : List MT) : List MT :=
  List.insertionSort mtLe l

/-- The inner loop of `vmod_filter`/`vmod_best_match`: maximum quality of a
header entry whose pattern matches the given preferred type, 0 if none. -/
def maxQualFor (st : List MT) (t : List Char) : ℚ :=
  st.foldl (fun q e => if mediaTypeMatch e.ty t ∧ q < e.q then e.q else q) 0

/-- The filtered-list loop of `vmod_filter` (cap `MAX_MEDIA_TYPES = 64`
on the output count). -/
def filterLoop (st : List MT) : List (List Char) → Nat → List MT
  | [], _ => []
  | t :: ts, cnt =>
    if cnt < 64 then
      if 0 < maxQualFor st t then ⟨t, maxQualFor st t⟩ :: filterLoop st ts (cnt + 1)
      else filterLoop st ts cnt
    else []

/-- The selection loop of `vmod_best_match`: strict improvement over the
running best (sentinel -1) replaces it. -/
def bmLoop (st : List MT) : List (List Char) → Option (List Char) → ℚ → Option (List Char)
  | [], bt, _ => bt
  | t :: ts, bt, bq =>
    if bq < maxQualFor st t then bmLoop st ts (some t) (maxQualFor st t)
    else bmLoop st ts bt bq

/-- The inner loop of `vmod_prefer`: does some header entry match this
preferred type with quality strictly above 0? -/
def preferInner : List MT → List Char → Bool
  | [], _ => false
  | e :: r, t => if mediaTypeMatch e.ty t ∧ 0 < e.q then true else preferInner r t

/-- The outer loop of `vmod_prefer`: first preferred type accepted by some
header entry. -/
def preferOuter (st : List MT) : List (List Char) → Option (List Char)
  | [] => none
  | t :: ts => if preferInner st t then some t else preferOuter st ts

/-- `vmod_canonicalize`. -/
def vmodCanonicalize (h : List Char) : List Char :=
  if h = [] then []
  else buildAcceptString (sortMTs (parseAccept h))

/-- `vmod_filter`. -/
def vmodFilter (h pref : List Char) : List Char :=
  if pref = [] then vmodCanonicalize h
  else if h = [] then
    match parsePreferred pref with
    | [] => []
    | t :: _ => t
  else
    let st := parseAccept h
    let ps := parsePreferred pref
    let fl := filterLoop st ps 0
    let fl2 :=
      match fl, ps with
      | [], t :: _ => [⟨t, 1⟩]
      | l, _ => l
    buildAcceptString (sortMTs fl2)

/-- `vmod_best_match`. -/
def vmodBestMatch (h pref : List Char) : List Char :=
  match parsePreferred pref with
  | [] => []
  | t0 :: ts =>
    if h = [] then t0
    else
      match bmLoop (parseAccept h) (t0 :: ts) none (-1) with
      | some t => t
      | none => t0

/-- `vmod_prefer`. -/
def vmodPrefer (h pref : List Char) : List Char :=
  if h = [] then []
  else
    match parsePreferred pref with
    | [] => h
    | t0 :: ts =>
      match preferOuter (parseAccept h) (t0 :: ts) with
      | some t => t
      | none => h

/-- `vmod_quality`. -/
def vmodQuality (h mt : List Char) : ℚ :=
  if h = [] then 0
  else if mt = [] then 0
  else getQualityForType (parseAccept h) (lowerStr mt)

/-- `vmod_accepts`. -/
def vmodAccepts (h mt : List Char) : Bool :=
  0 < vmodQuality h mt

/-! ### The C `double` domain and the quality clamp on it

The main embedding reads quality values as exact rationals, which cannot
represent the non-finite doubles that libc `strtod` can produce: `q=inf`
gives +infinity, `q=-inf` gives -infinity, and `q=nan` gives NaN.  To settle
what the clamp of `parse_media_type` (lines 144-147) does with those, the
clamp is transcribed here over the full double domain.  `CDouble` is a
finite value (read exactly, as elsewhere in the file), an infinity, or NaN;
`cLt` is the C `<` comparison, which is false whenever either operand is
NaN (IEEE 754 unordered comparison, the semantics of C relational operators
on doubles). -/
inductive CDouble where
  | fin : ℚ → CDouble
  | pinf : CDouble
  | minf : CDouble
  | nan : CDouble
deriving DecidableEq, Repr

/-- The C `<` on doubles: false on NaN operands, the usual order otherwise. -/
def cLt : CDouble → CDouble → Bool
  | CDouble.nan, _ => false
  | _, CDouble.nan => false
  | CDouble.fin a, CDouble.fin b => a < b
  | CDouble.fin _, CDouble.pinf => true
  | CDouble.fin _, CDouble.minf => false
  | CDouble.pinf, _ => false
  | CDouble.minf, CDouble.minf => false
  | CDouble.minf, _ => true

/-- Lines 144-147 of `parse_media_type`, verbatim over `CDouble`:
`if (quality < 0.0) quality = 0.0; if (quality > 1.0) quality = 1.0;`
(`a > b` is `b < a`). -/
def clampC (v : CDouble) : CDouble :=
  let v1 := if cLt v (CDouble.fin 0) then CDouble.fin 0 else v
  if cLt (CDouble.fin 1) v1 then CDouble.fin 1 else v1

/-- Membership in the claimed interval [0, 1] (no non-finite value lies in
any closed interval). -/
def inUnitRange : CDouble → Prop
  | CDouble.fin q => 0 ≤ q ∧ q ≤ 1
  | _ => False

theorem cLt_fin (a b : ℚ) : cLt (CDouble.fin a) (CDouble.fin b) = decide (a < b) :=
  rfl

/-! ### Lemmas about `get_quality_for_type` -/

/-- Accumulator semantics of the two wildcard trackers: the last entry
satisfying `p` overwrites the running value. -/
def lastQD (p : MT → Bool) (st : List MT) (d : ℚ) : ℚ :=
  st.foldl (fun a e => if p e then e.q else a) d

/-- Quality of the last entry in `st` whose type is exactly `pat`. -/
def lastWildQ (pat : List Char) (st : List MT) : Option ℚ :=
  st.foldl (fun a e => if e.ty = pat then some e.q else a) none

theorem gqLoop_exact (ty pfx : List Char) :
    ∀ (st : List MT) (wq twq : ℚ) (e : MT),
      st.find? (fun x => decide (x.ty = ty)) = some e →
      gqLoop ty pfx st wq twq = e.q := by
  intro st
  induction st with
  | nil => intro wq twq e he; simp at he
  | cons x r ih =>
    intro wq twq e he
    by_cases hx : x.ty = ty
    · rw [List.find?_cons_of_pos _ (by simp [hx])] at he
      cases he
      simp [gqLoop, hx]
    · rw [List.find?_cons_of_neg _ (by simp [hx])] at he
      simp only [gqLoop, if_neg hx]
      split_ifs <;> exact ih _ _ _ he

theorem gqLoop_noexact (ty pfx : List Char) :
    ∀ (st : List MT) (wq twq : ℚ), (∀ e ∈ st, e.ty ≠ ty) →
      gqLoop ty pfx st wq twq =
        (if 0 ≤ lastQD (fun e => decide (¬e.ty = starStar ∧ (pfx ≠ [] ∧ e.ty = pfx))) st twq
         then lastQD (fun e => decide (¬e.ty = starStar ∧ (pfx ≠ [] ∧ e.ty = pfx))) st twq
         else if 0 ≤ lastQD (fun e => decide (e.ty = starStar)) st wq
         then lastQD (fun e => decide (e.ty = starStar)) st wq
         else 0) := by
  intro st
  induction st with
  | nil => intro wq twq _; simp [gqLoop, lastQD]
  | cons x r ih =>
    intro wq twq hne
    have hx : x.ty ≠ ty := hne x (List.mem_cons_self x r)
    have hr : ∀ e ∈ r, e.ty ≠ ty := fun e he => hne e (List.mem_cons_of_mem x he)
    by_cases hs : x.ty = starStar
    · simp only [gqLoop, if_neg hx, if_pos hs]
      rw [ih _ _ hr]
      simp [lastQD, hs]
    · by_cases hp : pfx ≠ [] ∧ x.ty = pfx
      · have hpfx : ¬pfx = starStar := hp.2 ▸ hs
        simp only [gqLoop, if_neg hx, if_neg hs, if_pos hp]
        rw [ih _ _ hr]
        simp [lastQD, hs, hp.1, hp.2, hpfx]
      · simp only [gqLoop, if_neg hx, if_neg hs, if_neg hp]
        rw [ih _ _ hr]
        simp [lastQD, hs, hp]

theorem lastQD_congr {p p' : MT → Bool} (hp : ∀ e, p e = p' e) (st : List MT) (d : ℚ) :
    lastQD p st d = lastQD p' st d := by
  induction st generalizing d with
  | nil => rfl
  | cons x r ih =>
    simp only [lastQD, List.foldl_cons, hp x] at *
    exact ih _

theorem lastWildQ_foldl_getD (pat : List Char) :
    ∀ (st : List MT) (o : Option ℚ) (d : ℚ),
      (st.foldl (fun a e => if e.ty = pat then some e.q else a) o).getD d =
        lastQD (fun e => decide (e.ty = pat)) st (o.getD d) := by
  intro st
  induction st with
  | nil => intro o d; rfl
  | cons x r ih =>
    intro o d
    by_cases hx : x.ty = pat
    · simp only [lastQD, List.foldl_cons, if_pos hx, decide_eq_true hx, ih]
      simp [lastQD]
    · simp only [lastQD, List.foldl_cons, if_neg hx, decide_eq_false hx, ih]
      simp [lastQD]

theorem lastQD_eq_lastWildQ (pat : List Char) (st : List MT) (d : ℚ) :
    lastQD (fun e => decide (e.ty = pat)) st d = (lastWildQ pat st).getD d := by
  rw [lastWildQ, lastWildQ_foldl_getD]
  rfl

theorem lastWildQ_mem (pat : List Char) :
    ∀ (st : List MT) (q : ℚ), lastWildQ pat st = some q →
      ∃ e ∈ st, e.ty = pat ∧ e.q = q := by
  have aux : ∀ (st : List MT) (o : Option ℚ) (q : ℚ),
      st.foldl (fun a e => if e.ty = pat then some e.q else a) o = some q →
      o = some q ∨ ∃ e ∈ st, e.ty = pat ∧ e.q = q := by
    intro st
    induction st with
    | nil => intro o q h; exact Or.inl h
    | cons x r ih =>
      intro o q h
      simp only [List.foldl_cons] at h
      rcases ih _ _ h with h1 | ⟨e, he, hty, hq⟩
      · by_cases hx : x.ty = pat
        · rw [if_pos hx] at h1
          cases h1
          exact Or.inr ⟨x, List.mem_cons_self x r, hx, rfl⟩
        · rw [if_neg hx] at h1
          exact Or.inl h1
      · exact Or.inr ⟨e, List.mem_cons_of_mem x he, hty, hq⟩
  intro st q h
  rcases aux st none q h with h1 | h2
  · simp at h1
  · exact h2

theorem lastQD_cases (p : MT → Bool) :
    ∀ (st : List MT) (d : ℚ), lastQD p st d = d ∨ ∃ e ∈ st, lastQD p st d = e.q := by
  intro st
  induction st with
  | nil => intro d; exact Or.inl rfl
  | cons x r ih =>
    intro d
    simp only [lastQD, List.foldl_cons]
    by_cases hx : p x
    · rw [if_pos hx]
      rcases ih x.q with h1 | ⟨e, he, hq⟩
      · exact Or.inr ⟨x, List.mem_cons_self x r, h1⟩
      · exact Or.inr ⟨e, List.mem_cons_of_mem x he, hq⟩
    · rw [if_neg hx]
      rcases ih d with h1 | ⟨e, he, hq⟩
      · exact Or.inl h1
      · exact Or.inr ⟨e, List.mem_cons_of_mem x he, hq⟩

theorem getQualityForType_bounds (st : List MT) (t : List Char)
    (hb : ∀ e ∈ st, 0 ≤ e.q ∧ e.q ≤ 1) :
    0 ≤ getQualityForType st t ∧ getQualityForType st t ≤ 1 := by
  unfold getQualityForType
  cases hf : st.find? (fun x => decide (x.ty = t)) with
  | some e =>
    rw [gqLoop_exact t (mkPfx t) st (-1) (-1) e hf]
    exact hb e (List.mem_of_find?_eq_some hf)
  | none =>
    have hne : ∀ e ∈ st, e.ty ≠ t := by
      intro e he
      have := List.find?_eq_none.mp hf e he
      simpa using this
    rw [gqLoop_noexact t (mkPfx t) st (-1) (-1) hne]
    rcases lastQD_cases (fun e => decide (¬e.ty = starStar ∧ (mkPfx t ≠ [] ∧ e.ty = mkPfx t))) st (-1) with h1 | ⟨e, he, hq⟩ <;>
      rcases lastQD_cases (fun e => decide (e.ty = starStar)) st (-1) with h2 | ⟨f, hf2, hq2⟩ <;>
        split_ifs <;>
          simp_all <;>
            first
              | exact (hb e he)
              | exact (hb f hf2)
              | omega

/-! ### Quality range invariants -/


/-! ### Quality range invariants -/

theorem clampQ_bounds (v : ℚ) : 0 ≤ clampQ v ∧ clampQ v ≤ 1 := by
  unfold clampQ
  split_ifs with h1 h2
  · exact ⟨le_refl 0, by norm_num⟩
  · exact ⟨by norm_num, le_refl 1⟩
  · push_neg at h1 h2
    exact ⟨h1, h2⟩

theorem parseParams_q_bounds :
    ∀ (l : List Char) (q : ℚ), 0 ≤ q → q ≤ 1 →
      0 ≤ (parseParams l q).2 ∧ (parseParams l q).2 ≤ 1 := by
  intro l q
  induction l, q using parseParams.induct with
  | case1 l q h p name p1 h1 hq p2 r ih =>
    intro _ _
    rw [parseParams]
    simp only [dif_pos h, dif_pos h1, if_pos hq]
    exact ih (clampQ_bounds _).1 (clampQ_bounds _).2
  | case2 l q h p name p1 h1 hq ih =>
    intro h0 hle
    rw [parseParams]
    simp only [dif_pos h, dif_pos h1, if_neg hq]
    exact ih h0 hle
  | case3 l q h p p1 h1 ih =>
    intro h0 hle
    rw [parseParams]
    simp only [dif_pos h, dif_neg h1]
    exact ih h0 hle
  | case4 l q h =>
    intro h0 hle
    rw [parseParams]
    simp only [dif_neg h]
    exact ⟨h0, hle⟩

theorem parseMediaType_q_bounds {l r ty : List Char} {q : ℚ}
    (h : parseMediaType l = some (r, ty, q)) : 0 ≤ q ∧ q ≤ 1 := by
  unfold parseMediaType at h
  dsimp only at h
  split_ifs at h with hty
  · have h' := Option.some.inj h
    have h3 := congrArg (fun x : List Char × List Char × ℚ => x.2.2) h'
    dsimp at h3
    rw [← h3]
    exact parseParams_q_bounds _ 1 (by norm_num) (by norm_num)
  · have h' := Option.some.inj h
    have h3 := congrArg (fun x : List Char × List Char × ℚ => x.2.2) h'
    dsimp at h3
    rw [← h3]
    exact parseParams_q_bounds _ 1 (by norm_num) (by norm_num)

theorem parseAcceptGo_q_bounds :
    ∀ (fuel : Nat) (l : List Char) (e : MT), e ∈ parseAcceptGo fuel l →
      0 ≤ e.q ∧ e.q ≤ 1 := by
  intro fuel
  induction fuel with
  | zero => intro l e he; simp [parseAcceptGo] at he
  | succ n ih =>
    intro l e he
    unfold parseAcceptGo at he
    split_ifs at he with hl
    · simp at he
    · cases hm : parseMediaType l with
      | none => rw [hm] at he; simp at he
      | some v =>
        obtain ⟨rest, ty, q⟩ := v
        rw [hm] at he
        rcases List.mem_cons.mp he with h1 | h2
        · subst h1
          exact parseMediaType_q_bounds hm
        · exact ih rest e h2

theorem parseAccept_q_bounds (h : List Char) :
    ∀ e ∈ parseAccept h, 0 ≤ e.q ∧ e.q ≤ 1 :=
  fun e he => parseAcceptGo_q_bounds 64 h e he

/-! ### Lemmas about the best-match and prefer loops -/

theorem maxQualFor_foldl_ge (t : List Char) :
    ∀ (st : List MT) (acc : ℚ),
      acc ≤ st.foldl (fun q e => if mediaTypeMatch e.ty t ∧ q < e.q then e.q else q) acc := by
  intro st
  induction st with
  | nil => intro acc; exact le_refl acc
  | cons e r ih =>
    intro acc
    simp only [List.foldl_cons]
    refine le_trans ?_ (ih _)
    split_ifs with hc
    · exact le_of_lt hc.2
    · exact le_refl acc

theorem maxQualFor_nonneg (st : List MT) (t : List Char) : 0 ≤ maxQualFor st t :=
  maxQualFor_foldl_ge t st 0

theorem bmLoop_all_le (st : List MT) :
    ∀ (ts : List (List Char)) (bt : Option (List Char)) (bq : ℚ),
      (∀ t ∈ ts, maxQualFor st t ≤ bq) → bmLoop st ts bt bq = bt := by
  intro ts
  induction ts with
  | nil => intro bt bq _; rfl
  | cons t r ih =>
    intro bt bq hle
    unfold bmLoop
    rw [if_neg (not_lt.mpr (hle t (List.mem_cons_self t r)))]
    exact ih bt bq (fun u hu => hle u (List.mem_cons_of_mem t hu))

theorem getD_mem_of_lt {ts : List (List Char)} {j : Nat} (hj : j < ts.length) :
    ts.getD j [] ∈ ts := by
  rw [List.getD_eq_getElem _ _ hj]
  exact List.getElem_mem hj

theorem bmLoop_exists_gt (st : List MT) :
    ∀ (ts : List (List Char)) (bt : Option (List Char)) (bq : ℚ),
      (∃ t ∈ ts, bq < maxQualFor st t) →
      ∃ i, i < ts.length ∧ bmLoop st ts bt bq = some (ts.getD i []) ∧
        bq < maxQualFor st (ts.getD i []) ∧
        (∀ j, j < ts.length → maxQualFor st (ts.getD j []) ≤ maxQualFor st (ts.getD i [])) ∧
        (∀ j, j < i → maxQualFor st (ts.getD j []) < maxQualFor st (ts.getD i [])) := by
  intro ts
  induction ts with
  | nil => intro bt bq h; simp at h
  | cons t r ih =>
    intro bt bq hex
    by_cases hbt : bq < maxQualFor st t
    · by_cases hex2 : ∃ u ∈ r, maxQualFor st t < maxQualFor st u
      · obtain ⟨i, hi, heq, hgt, hmax, hfirst⟩ := ih (some t) (maxQualFor st t) hex2
        refine ⟨i + 1, by simpa using Nat.succ_lt_succ hi, ?_, ?_, ?_, ?_⟩
        · unfold bmLoop
          rw [if_pos hbt]
          simpa using heq
        · simp only [List.getD_cons_succ]
          exact lt_trans hbt hgt
        · intro j hj
          cases j with
          | zero =>
            simp only [List.getD_cons_zero, List.getD_cons_succ]
            exact le_of_lt hgt
          | succ j' =>
            simp only [List.getD_cons_succ]
            simp only [List.length_cons] at hj
            exact hmax j' (Nat.lt_of_succ_lt_succ hj)
        · intro j hj
          cases j with
          | zero =>
            simp only [List.getD_cons_zero, List.getD_cons_succ]
            exact hgt
          | succ j' =>
            simp only [List.getD_cons_succ]
            exact hfirst j' (Nat.lt_of_succ_lt_succ hj)
      · push_neg at hex2
        refine ⟨0, by simp, ?_, by simpa using hbt, ?_, ?_⟩
        · unfold bmLoop
          rw [if_pos hbt]
          simpa using bmLoop_all_le st r (some t) (maxQualFor st t) hex2
        · intro j hj
          cases j with
          | zero => simp
          | succ j' =>
            simp only [List.getD_cons_zero, List.getD_cons_succ]
            simp only [List.length_cons] at hj
            exact hex2 _ (getD_mem_of_lt (Nat.lt_of_succ_lt_succ hj))
        · intro j hj
          exact absurd hj (Nat.not_lt_zero j)
    · have hle : maxQualFor st t ≤ bq := not_lt.mp hbt
      have hex3 : ∃ u ∈ r, bq < maxQualFor st u := by
        obtain ⟨u, hu, hlt⟩ := hex
        rcases List.mem_cons.mp hu with h1 | h2
        · subst h1; exact absurd hlt hbt
        · exact ⟨u, h2, hlt⟩
      obtain ⟨i, hi, heq, hgt, hmax, hfirst⟩ := ih bt bq hex3
      refine ⟨i + 1, by simpa using Nat.succ_lt_succ hi, ?_, ?_, ?_, ?_⟩
      · unfold bmLoop
        rw [if_neg hbt]
        simpa using heq
      · simp only [List.getD_cons_succ]
        exact hgt
      · intro j hj
        cases j with
        | zero =>
          simp only [List.getD_cons_zero, List.getD_cons_succ]
          exact le_trans hle (le_of_lt hgt)
        | succ j' =>
          simp only [List.getD_cons_succ]
          simp only [List.length_cons] at hj
          exact hmax j' (Nat.lt_of_succ_lt_succ hj)
      · intro j hj
        cases j with
        | zero =>
          simp only [List.getD_cons_zero, List.getD_cons_succ]
          exact lt_of_le_of_lt hle hgt
        | succ j' =>
          simp only [List.getD_cons_succ]
          exact hfirst j' (Nat.lt_of_succ_lt_succ hj)

theorem preferInner_eq_any (st : List MT) (t : List Char) :
    preferInner st t = st.any (fun e => mediaTypeMatch e.ty t && decide (0 < e.q)) := by
  induction st with
  | nil => rfl
  | cons e r ih =>
    unfold preferInner
    rw [List.any_cons]
    by_cases hc : mediaTypeMatch e.ty t ∧ 0 < e.q
    · rw [if_pos hc]
      simp [hc.1, hc.2]
    · rw [if_neg hc]
      rw [ih]
      rcases Decidable.not_and_iff_or_not.mp hc with h1 | h2
      · simp [h1]
      · simp [h2]

/-! ### Character-level lemmas -/

theorem toNat_ofNat_valid (n : Nat) (h : n < 55296) : (Char.ofNat n).toNat = n := by
  rw [Char.ofNat, dif_pos (Or.inl h)]
  rfl

theorem toLowerAscii_toNat (c : Char) :
    (toLowerAscii c).toNat =
      if 65 ≤ c.toNat ∧ c.toNat ≤ 90 then c.toNat + 32 else c.toNat := by
  unfold toLowerAscii
  split_ifs with h
  · exact toNat_ofNat_valid _ (by omega)
  · rfl

theorem toLowerAscii_eq_self_or (c : Char) :
    toLowerAscii c = c ∨ (97 ≤ (toLowerAscii c).toNat ∧ (toLowerAscii c).toNat ≤ 122) := by
  by_cases h : 65 ≤ c.toNat ∧ c.toNat ≤ 90
  · right
    rw [toLowerAscii_toNat, if_pos h]
    omega
  · left
    unfold toLowerAscii
    rw [if_neg h]

theorem toLowerAscii_idem (c : Char) : toLowerAscii (toLowerAscii c) = toLowerAscii c := by
  rcases toLowerAscii_eq_self_or c with h | h
  · rw [h, h]
  · have hcond : ¬(65 ≤ (toLowerAscii c).toNat ∧ (toLowerAscii c).toNat ≤ 90) := by omega
    conv_lhs => rw [toLowerAscii]
    rw [if_neg hcond]

theorem toLowerAscii_ne (c d : Char) (hd : d.toNat < 97 ∨ 122 < d.toNat) (hc : c ≠ d) :
    toLowerAscii c ≠ d := by
  rcases toLowerAscii_eq_self_or c with h | h
  · rw [h]; exact hc
  · intro he
    rw [he] at h
    omega

theorem pvChar_toLower (c : Char) (h : pvChar c = true) : pvChar (toLowerAscii c) = true := by
  unfold pvChar at h ⊢
  rw [decide_eq_true_iff] at h ⊢
  exact ⟨toLowerAscii_ne c ';' (Or.inl (by decide)) h.1,
         toLowerAscii_ne c ',' (Or.inl (by decide)) h.2⟩

theorem isWs_false_of_ge (d : Char) (hd : 97 ≤ d.toNat) : isWs d = false := by
  have h1 : d ≠ ' ' := fun he => absurd hd (by rw [he]; decide)
  have h2 : d ≠ '\t' := fun he => absurd hd (by rw [he]; decide)
  have h3 : d ≠ '\n' := fun he => absurd hd (by rw [he]; decide)
  have h4 : d ≠ Char.ofNat 11 := fun he => absurd hd (by rw [he]; decide)
  have h5 : d ≠ Char.ofNat 12 := fun he => absurd hd (by rw [he]; decide)
  have h6 : d ≠ '\r' := fun he => absurd hd (by rw [he]; decide)
  unfold isWs
  simp [h1, h2, h3, h4, h5, h6]

theorem isWs_toLower (c : Char) (h : isWs c = false) : isWs (toLowerAscii c) = false := by
  rcases toLowerAscii_eq_self_or c with h1 | h1
  · rw [h1]; exact h
  · exact isWs_false_of_ge _ h1.1

/-! ### `strcmp` order lemmas -/

theorem strLe_total : ∀ a b : List Char, strLe a b = true ∨ strLe b a = true := by
  intro a
  induction a with
  | nil => intro b; left; rfl
  | cons x as ih =>
    intro b
    cases b with
    | nil => right; rfl
    | cons y bs =>
      by_cases hxy : x = y
      · subst hxy
        unfold strLe
        rw [if_pos rfl, if_pos rfl]
        exact ih bs
      · rcases lt_trichotomy x y with h | h | h
        · left
          unfold strLe
          rw [if_neg hxy]
          simpa using h
        · exact absurd h hxy
        · right
          unfold strLe
          rw [if_neg (Ne.symm hxy)]
          simpa using h

theorem strLe_antisymm : ∀ a b : List Char, strLe a b = true → strLe b a = true → a = b := by
  intro a
  induction a with
  | nil =>
    intro b _ hba
    cases b with
    | nil => rfl
    | cons y bs => exact absurd hba (by simp [strLe])
  | cons x as ih =>
    intro b hab hba
    cases b with
    | nil => exact absurd hab (by simp [strLe])
    | cons y bs =>
      by_cases hxy : x = y
      · subst hxy
        unfold strLe at hab hba
        rw [if_pos rfl] at hab hba
        rw [ih bs hab hba]
      · unfold strLe at hab hba
        rw [if_neg hxy] at hab
        rw [if_neg (Ne.symm hxy)] at hba
        rw [decide_eq_true_iff] at hab hba
        exact absurd (lt_trans hab hba) (lt_irrefl x)

theorem strLe_trans : ∀ a b c : List Char,
    strLe a b = true → strLe b c = true → strLe a c = true := by
  intro a
  induction a with
  | nil => intro b c _ _; rfl
  | cons x as ih =>
    intro b c hab hbc
    cases b with
    | nil => exact absurd hab (by simp [strLe])
    | cons y bs =>
      cases c with
      | nil => exact absurd hbc (by simp [strLe])
      | cons z cs =>
        unfold strLe at hab hbc ⊢
        by_cases hxy : x = y
        · subst hxy
          rw [if_pos rfl] at hab
          by_cases hyz : x = z
          · subst hyz
            rw [if_pos rfl] at hbc
            rw [if_pos rfl]
            exact ih bs cs hab hbc
          · rw [if_neg hyz] at hbc
            rw [if_neg hyz]
            exact hbc
        · rw [if_neg hxy] at hab
          rw [decide_eq_true_iff] at hab
          by_cases hyz : y = z
          · subst hyz
            rw [if_neg hxy]
            simpa using hab
          · rw [if_neg hyz] at hbc
            rw [decide_eq_true_iff] at hbc
            have hxz : x < z := lt_trans hab hbc
            rw [if_neg (ne_of_lt hxz)]
            simpa using hxz

/-! ### Well-formedness of parsed type tokens -/

/-- Invariant of every type string produced by the parser: nonempty, free of
`;` and `,`, no leading or trailing whitespace, already lower-cased. -/
def WFty (t : List Char) : Prop :=
  t ≠ [] ∧ (∀ c ∈ t, pvChar c = true) ∧
    t.head?.all (fun c => !isWs c) = true ∧
    t.getLast?.all (fun c => !isWs c) = true ∧
    lowerStr t = t

instance (t : List Char) : Decidable (WFty t) := by
  unfold WFty; infer_instance

theorem trimTrailWs_eq_rdropWhile (l : List Char) :
    trimTrailWs l = List.rdropWhile isWs l :=
  rfl

theorem head?_dropWhile_false {p : Char → Bool} {l : List Char} {c : Char}
    (h : (l.dropWhile p).head? = some c) : p c = false := by
  have := List.head?_dropWhile_not p l
  rw [h] at this
  exact this

theorem head?_takeWhile_some {p : Char → Bool} {l : List Char} {c : Char}
    (h : (l.takeWhile p).head? = some c) : l.head? = some c := by
  cases l with
  | nil => simp at h
  | cons x xs =>
    rw [List.takeWhile_cons] at h
    split_ifs at h with hx
    · simpa using h
    · simp at h

theorem parseMediaType_ty_shape {l r ty : List Char} {q : ℚ}
    (h : parseMediaType l = some (r, ty, q)) :
    ty = lowerStr (trimTrailWs ((l.dropWhile isWs).takeWhile pvChar)) ∧
      trimTrailWs ((l.dropWhile isWs).takeWhile pvChar) ≠ [] := by
  unfold parseMediaType at h
  dsimp only at h
  split_ifs at h with hty
  · have h' := Option.some.inj h
    have h3 := congrArg (fun x : List Char × List Char × ℚ => x.2.1) h'
    dsimp at h3
    exact ⟨h3.symm, hty⟩
  · have h' := Option.some.inj h
    have h3 := congrArg (fun x : List Char × List Char × ℚ => x.2.1) h'
    dsimp at h3
    exact ⟨h3.symm, hty⟩

theorem parseMediaType_ty_WF {l r ty : List Char} {q : ℚ}
    (h : parseMediaType l = some (r, ty, q)) : WFty ty := by
  obtain ⟨hshape, htt⟩ := parseMediaType_ty_shape h
  set tok := (l.dropWhile isWs).takeWhile pvChar with htok
  set tt := trimTrailWs tok with httdef
  subst hshape
  refine ⟨?_, ?_, ?_, ?_, ?_⟩
  · simpa [lowerStr] using htt
  · intro c hc
    simp only [lowerStr, List.mem_map] at hc
    obtain ⟨c', hc', rfl⟩ := hc
    have hmem : c' ∈ tok := by
      have hpre : tt <+: tok := by
        rw [httdef, trimTrailWs_eq_rdropWhile]
        exact List.rdropWhile_prefix _ _
      exact hpre.sublist.mem hc'
    exact pvChar_toLower _ (List.mem_takeWhile_imp hmem)
  · cases hh : (lowerStr tt).head? with
    | none => simp
    | some c =>
      simp only [Option.all_some]
      rw [lowerStr, List.head?_map] at hh
      cases h1 : tt.head? with
      | none => rw [h1] at hh; simp at hh
      | some c' =>
        rw [h1] at hh
        obtain rfl : toLowerAscii c' = c := by simpa using hh
        obtain ⟨u, hu⟩ : tt <+: tok := by
          rw [httdef, trimTrailWs_eq_rdropWhile]
          exact List.rdropWhile_prefix _ _
        have h2 : tok.head? = some c' := by
          rw [← hu, List.head?_append, h1]
          rfl
        have h3 : (l.dropWhile isWs).head? = some c' := head?_takeWhile_some h2
        have h4 : isWs c' = false := head?_dropWhile_false h3
        simp [isWs_toLower c' h4]
  · cases hh : (lowerStr tt).getLast? with
    | none => simp
    | some c =>
      simp only [Option.all_some]
      rw [List.getLast?_eq_head?_reverse, lowerStr, ← List.map_reverse,
        List.head?_map] at hh
      cases h1 : tt.reverse.head? with
      | none => rw [h1] at hh; simp at hh
      | some c' =>
        rw [h1] at hh
        obtain rfl : toLowerAscii c' = c := by simpa using hh
        have h4 : isWs c' = false := by
          rw [httdef, trimTrailWs_eq_rdropWhile, List.rdropWhile] at h1
          rw [List.reverse_reverse] at h1
          exact head?_dropWhile_false h1
        simp [isWs_toLower c' h4]
  · rw [lowerStr, lowerStr, List.map_map]
    exact List.map_congr_left (fun c _ => toLowerAscii_idem c)

/-! ### Round-trip of `build_accept_string` through the parser -/

theorem takeWhile_append_all {p : Char → Bool} {a : List Char} (b : List Char)
    (h : ∀ c ∈ a, p c = true) : (a ++ b).takeWhile p = a ++ b.takeWhile p := by
  induction a with
  | nil => simp
  | cons x xs ih =>
    simp only [List.cons_append, List.takeWhile_cons,
      h x (List.mem_cons_self x xs), if_true]
    rw [ih (fun c hc => h c (List.mem_cons_of_mem x hc))]

theorem dropWhile_append_all {p : Char → Bool} {a : List Char} (b : List Char)
    (h : ∀ c ∈ a, p c = true) : (a ++ b).dropWhile p = b.dropWhile p := by
  induction a with
  | nil => simp
  | cons x xs ih =>
    rw [List.cons_append, List.dropWhile_cons_of_pos (h x (List.mem_cons_self x xs))]
    exact ih (fun c hc => h c (List.mem_cons_of_mem x hc))

theorem digitCharFacts : ∀ k, k < 10 →
    isDig (Char.ofNat (48 + k)) = true ∧ isWs (Char.ofNat (48 + k)) = false ∧
      pvChar (Char.ofNat (48 + k)) = true ∧ digitsToNat [Char.ofNat (48 + k)] = k := by
  decide

theorem fmt1_tenth : ∀ k : Nat, k < 10 →
    fmt1 ((k : ℚ) / 10) = ['0', '.', Char.ofNat (48 + k)] := by
  with_unfolding_all decide

theorem cast_div_bounds {k : Nat} (hk : k < 10) :
    0 ≤ (k : ℚ) / 10 ∧ (k : ℚ) / 10 < 1 := by
  constructor
  · positivity
  · have h9 : (k : ℚ) ≤ 9 := by exact_mod_cast Nat.lt_succ_iff.mp hk
    linarith

theorem clampQ_tenth {k : Nat} (hk : k < 10) : clampQ ((k : ℚ) / 10) = (k : ℚ) / 10 := by
  obtain ⟨h0, h1⟩ := cast_div_bounds hk
  unfold clampQ
  rw [if_neg (not_lt.mpr h0), if_neg (not_lt.mpr (le_of_lt h1))]


theorem strtod_0k (k : Nat) (hk : k < 10) (s : List Char)
    (hs : s = [] ∨ s.head? = some ',') :
    strtod ('0' :: '.' :: Char.ofNat (48 + k) :: s) = ((k : ℚ) / 10, s) := by
  obtain ⟨hdig, _, _, hval⟩ := digitCharFacts k hk
  have hsd : s.takeWhile isDig = [] ∧ s.dropWhile isDig = s ∧ parseExpPart s = (0, s) := by
    rcases hs with rfl | hcomma
    · exact ⟨rfl, rfl, rfl⟩
    · cases s with
      | nil => exact ⟨rfl, rfl, rfl⟩
      | cons c r =>
        simp only [List.head?_cons, Option.some.injEq] at hcomma
        subst hcomma
        refine ⟨List.takeWhile_cons_of_neg (by decide),
          List.dropWhile_cons_of_neg (by decide), ?_⟩
        unfold parseExpPart
        rw [if_neg (by simp)]
  have e1 : List.dropWhile isWs ('0' :: '.' :: Char.ofNat (48 + k) :: s) =
      '0' :: '.' :: Char.ofNat (48 + k) :: s :=
    List.dropWhile_cons_of_neg (by decide)
  have e2 : dropSign ('0' :: '.' :: Char.ofNat (48 + k) :: s) =
      (false, '0' :: '.' :: Char.ofNat (48 + k) :: s) := by
    unfold dropSign
    rw [if_neg (by simp), if_neg (by simp)]
  have e3 : List.takeWhile isDig ('0' :: '.' :: Char.ofNat (48 + k) :: s) = ['0'] := by
    rw [List.takeWhile_cons_of_pos (by decide), List.takeWhile_cons_of_neg (by decide)]
  have e4 : List.dropWhile isDig ('0' :: '.' :: Char.ofNat (48 + k) :: s) =
      '.' :: Char.ofNat (48 + k) :: s := by
    rw [List.dropWhile_cons_of_pos (by decide), List.dropWhile_cons_of_neg (by decide)]
  have e5 : fracSplit ('.' :: Char.ofNat (48 + k) :: s) = ([Char.ofNat (48 + k)], s) := by
    unfold fracSplit
    rw [if_pos (by simp)]
    dsimp only [List.tail_cons]
    rw [List.takeWhile_cons_of_pos hdig, List.dropWhile_cons_of_pos hdig, hsd.1, hsd.2.1]
  have hscan : strtodScan ('0' :: '.' :: Char.ofNat (48 + k) :: s) =
      (false, ['0'], [Char.ofNat (48 + k)], s) := by
    unfold strtodScan
    dsimp only
    rw [e1, e2]
    dsimp only
    rw [e3, e4, e5]
  unfold strtod
  rw [hscan]
  dsimp only
  rw [if_neg (by simp)]
  rw [hsd.2.2]
  dsimp only
  have hz : digitsToNat ['0'] = 0 := by decide
  rw [if_neg (by simp), hval, hz]
  norm_num

theorem parseParams_not_semi {l : List Char} (q : ℚ) (h : l.head? ≠ some ';') :
    parseParams l q = (l, q) := by
  rw [parseParams, dif_neg h]

theorem parseParams_qdigit (k : Nat) (hk : k < 10) (s : List Char)
    (hs : s = [] ∨ s.head? = some ',') :
    parseParams (';' :: 'q' :: '=' :: '0' :: '.' :: Char.ofNat (48 + k) :: s) 1 =
      (s, (k : ℚ) / 10) := by
  obtain ⟨hdig, hwsd, hpvd, hval⟩ := digitCharFacts k hk
  have hwsd2 : isWs (Char.ofNat (48 + k)) = false := hwsd
  have e1 : List.dropWhile isWs ('q' :: '=' :: '0' :: '.' :: Char.ofNat (48 + k) :: s) =
      'q' :: '=' :: '0' :: '.' :: Char.ofNat (48 + k) :: s :=
    List.dropWhile_cons_of_neg (by decide)
  have e2 : List.takeWhile pnChar ('q' :: '=' :: '0' :: '.' :: Char.ofNat (48 + k) :: s) =
      ['q'] := by
    rw [List.takeWhile_cons_of_pos (by decide), List.takeWhile_cons_of_neg (by decide)]
  have e3 : List.dropWhile pnChar ('q' :: '=' :: '0' :: '.' :: Char.ofNat (48 + k) :: s) =
      '=' :: '0' :: '.' :: Char.ofNat (48 + k) :: s := by
    rw [List.dropWhile_cons_of_pos (by decide), List.dropWhile_cons_of_neg (by decide)]
  have e4 : List.dropWhile isWs ('0' :: '.' :: Char.ofNat (48 + k) :: s) =
      '0' :: '.' :: Char.ofNat (48 + k) :: s :=
    List.dropWhile_cons_of_neg (by decide)
  have e5 := strtod_0k k hk s hs
  have e6 : parseParams s ((k : ℚ) / 10) = (s, (k : ℚ) / 10) := by
    refine parseParams_not_semi _ ?_
    rcases hs with rfl | h
    · simp
    · rw [h]; simp
  rw [parseParams]
  simp only [List.head?_cons, List.tail_cons]
  rw [dif_pos trivial]
  rw [e1, e2, e3]
  simp only [List.head?_cons, List.tail_cons]
  rw [dif_pos trivial]
  rw [if_pos (show (List.length ['q'] = 1 ∧ toLowerAscii (['q'].headI) = 'q') from ⟨rfl, by decide⟩)]
  try simp only [List.tail_cons]
  rw [e4, e5]
  dsimp only
  rw [clampQ_tenth hk, e6]

theorem trimTrailWs_WF {t : List Char} (h : WFty t) : trimTrailWs t = t := by
  rw [trimTrailWs_eq_rdropWhile]
  rw [List.rdropWhile_eq_self_iff]
  intro hl
  have h4 := h.2.2.2.1
  rw [List.getLast?_eq_getLast t hl] at h4
  simp only [Option.all_some, Bool.not_eq_true'] at h4
  simp [h4]

theorem parseMediaType_entry (t : List Char) (hWF : WFty t) (s : List Char)
    (hs : s = [] ∨ s.head? = some ';' ∨ s.head? = some ',') :
    parseMediaType (t ++ s) =
      some (if ((parseParams s 1).1.dropWhile isWs).head? = some ','
            then ((parseParams s 1).1.dropWhile isWs).tail
            else (parseParams s 1).1.dropWhile isWs,
            t, (parseParams s 1).2) := by
  obtain ⟨hne, hpv, hhead, hlast, hlow⟩ := hWF
  have hta : (t ++ s).dropWhile isWs = t ++ s := by
    cases t with
    | nil => exact absurd rfl hne
    | cons c r =>
      rw [List.cons_append]
      refine List.dropWhile_cons_of_neg ?_
      have h1 := hhead
      simp only [List.head?_cons, Option.all_some, Bool.not_eq_true'] at h1
      simp [h1]
  have hstop : s.takeWhile pvChar = [] ∧ s.dropWhile pvChar = s := by
    rcases hs with rfl | h | h
    · exact ⟨rfl, rfl⟩
    · cases s with
      | nil => exact ⟨rfl, rfl⟩
      | cons c r =>
        simp only [List.head?_cons, Option.some.injEq] at h
        subst h
        exact ⟨List.takeWhile_cons_of_neg (by decide),
          List.dropWhile_cons_of_neg (by decide)⟩
    · cases s with
      | nil => exact ⟨rfl, rfl⟩
      | cons c r =>
        simp only [List.head?_cons, Option.some.injEq] at h
        subst h
        exact ⟨List.takeWhile_cons_of_neg (by decide),
          List.dropWhile_cons_of_neg (by decide)⟩
  have htk : (t ++ s).takeWhile pvChar = t := by
    rw [takeWhile_append_all s hpv, hstop.1, List.append_nil]
  have hdr : (t ++ s).dropWhile pvChar = s := by
    rw [dropWhile_append_all s hpv, hstop.2]
  have htr : trimTrailWs t = t := trimTrailWs_WF ⟨hne, hpv, hhead, hlast, hlow⟩
  unfold parseMediaType
  dsimp only
  rw [hta, htk, hdr, htr]
  rw [if_neg hne]
  rw [hlow]

theorem buildEntry_q1 {e : MT} (h : e.q = 1) : buildEntry e = e.ty := by
  unfold buildEntry
  rw [h, if_neg (lt_irrefl 1), List.append_nil]

theorem buildEntry_tenth {e : MT} {k : Nat} (hk : k < 10) (h : e.q = (k : ℚ) / 10) :
    buildEntry e = e.ty ++ [';', 'q', '=', '0', '.', Char.ofNat (48 + k)] := by
  unfold buildEntry
  rw [h, if_pos (cast_div_bounds hk).2, fmt1_tenth k hk]

theorem parseMediaType_nil : parseMediaType [] = none :=
  rfl

theorem parseMediaType_sp (x : List Char) : parseMediaType (' ' :: x) = parseMediaType x := by
  unfold parseMediaType
  dsimp only
  rw [List.dropWhile_cons_of_pos (by decide)]

theorem parseAcceptGo_nil : ∀ n : Nat, parseAcceptGo n [] = [] := by
  intro n
  cases n with
  | zero => rfl
  | succ n => simp [parseAcceptGo]

theorem parseAcceptGo_sp (n : Nat) (x : List Char) :
    parseAcceptGo n (' ' :: x) = parseAcceptGo n x := by
  cases n with
  | zero => rfl
  | succ n =>
    cases x with
    | nil =>
      simp [parseAcceptGo, parseMediaType_sp, parseMediaType_nil]
    | cons c r =>
      simp only [parseAcceptGo]
      rw [if_neg (by simp), if_neg (by simp), parseMediaType_sp]

theorem dropWhile_isWs_sep (s : List Char) (hs : s = [] ∨ s.head? = some ',') :
    s.dropWhile isWs = s := by
  rcases hs with rfl | h
  · rfl
  · cases s with
    | nil => rfl
    | cons c r =>
      simp only [List.head?_cons, Option.some.injEq] at h
      subst h
      exact List.dropWhile_cons_of_neg (by decide)

theorem sep_head_ne_semi (s : List Char) (hs : s = [] ∨ s.head? = some ',') :
    s.head? ≠ some ';' := by
  rcases hs with rfl | h
  · simp
  · rw [h]
    simp

theorem parseMediaType_buildEntry (e : MT) (hWF : WFty e.ty)
    (hq : ∃ k : Nat, k ≤ 10 ∧ e.q = (k : ℚ) / 10) (s : List Char)
    (hs : s = [] ∨ s.head? = some ',') :
    parseMediaType (buildEntry e ++ s) =
      some (if s.head? = some ',' then s.tail else s, e.ty, e.q) := by
  obtain ⟨k, hk10, hq⟩ := hq
  by_cases hk : k = 10
  · subst hk
    have h1 : e.q = 1 := by rw [hq]; norm_num
    rw [buildEntry_q1 h1]
    rw [parseMediaType_entry e.ty hWF s (by tauto)]
    rw [parseParams_not_semi 1 (sep_head_ne_semi s hs)]
    dsimp only
    rw [dropWhile_isWs_sep s hs, h1]
  · have hklt : k < 10 := lt_of_le_of_ne (Nat.lt_succ_iff.mp (Nat.lt_succ_of_le hk10)) hk
    rw [buildEntry_tenth hklt hq]
    rw [List.append_assoc]
    have hcons : ([';', 'q', '=', '0', '.', Char.ofNat (48 + k)] : List Char) ++ s =
        ';' :: 'q' :: '=' :: '0' :: '.' :: Char.ofNat (48 + k) :: s := rfl
    rw [hcons]
    rw [parseMediaType_entry e.ty hWF
      (';' :: 'q' :: '=' :: '0' :: '.' :: Char.ofNat (48 + k) :: s) (Or.inr (Or.inl rfl))]
    rw [parseParams_qdigit k hklt s hs]
    dsimp only
    rw [dropWhile_isWs_sep s hs, hq]

theorem buildAcceptString_cons2 (e f : MT) (r : List MT) :
    buildAcceptString (e :: f :: r) = buildEntry e ++ ',' :: ' ' :: buildAcceptString (f :: r) :=
  rfl

theorem buildAcceptString_ne_nil {e : MT} (r : List MT) (h : e.ty ≠ []) :
    buildAcceptString (e :: r) ≠ [] := by
  cases r with
  | nil =>
    show buildEntry e ≠ []
    unfold buildEntry
    simp [h]
  | cons f r' =>
    rw [buildAcceptString_cons2]
    unfold buildEntry
    simp

theorem parseAcceptGo_build :
    ∀ (l : List MT) (n : Nat), l.length ≤ n →
      (∀ e ∈ l, WFty e.ty) →
      (∀ e ∈ l, ∃ k : Nat, k ≤ 10 ∧ e.q = (k : ℚ) / 10) →
      parseAcceptGo n (buildAcceptString l) = l := by
  intro l
  induction l with
  | nil =>
    intro n _ _ _
    show parseAcceptGo n [] = []
    exact parseAcceptGo_nil n
  | cons e rest ih =>
    intro n hn hWF hQ
    have hWFe := hWF e (List.mem_cons_self e rest)
    have hQe := hQ e (List.mem_cons_self e rest)
    have htyne : e.ty ≠ [] := hWFe.1
    cases n with
    | zero => simp at hn
    | succ n =>
      cases rest with
      | nil =>
        have hb : buildAcceptString [e] = buildEntry e ++ [] := by
          show buildEntry e = buildEntry e ++ []
          rw [List.append_nil]
        unfold parseAcceptGo
        rw [if_neg (buildAcceptString_ne_nil [] htyne)]
        rw [hb, parseMediaType_buildEntry e hWFe hQe [] (Or.inl rfl)]
        dsimp only
        rw [if_neg (by simp)]
        rw [parseAcceptGo_nil n]
      | cons f r' =>
        unfold parseAcceptGo
        rw [if_neg (buildAcceptString_ne_nil (f :: r') htyne)]
        rw [buildAcceptString_cons2,
          parseMediaType_buildEntry e hWFe hQe (',' :: ' ' :: buildAcceptString (f :: r'))
            (Or.inr rfl)]
        dsimp only
        rw [if_pos (show (',' :: ' ' :: buildAcceptString (f :: r')).head? = some ','
          from rfl)]
        dsimp only [List.tail_cons]
        rw [parseAcceptGo_sp]
        rw [ih n (by simp only [List.length_cons] at hn ⊢; omega)
          (fun x hx => hWF x (List.mem_cons_of_mem e hx))
          (fun x hx => hQ x (List.mem_cons_of_mem e hx))]

/-! ### Sorting lemmas -/

instance : IsTotal MT mtLe :=
  ⟨fun a b => by
    unfold mtLe
    rcases lt_trichotomy a.q b.q with h | h | h
    · exact Or.inr (Or.inl h)
    · rcases strLe_total a.ty b.ty with hs | hs
      · exact Or.inl (Or.inr ⟨h, hs⟩)
      · exact Or.inr (Or.inr ⟨h.symm, hs⟩)
    · exact Or.inl (Or.inl h)⟩

instance : IsTrans MT mtLe :=
  ⟨fun a b c hab hbc => by
    rcases hab with h1 | ⟨h1, hs1⟩ <;> rcases hbc with h2 | ⟨h2, hs2⟩
    · exact Or.inl (lt_trans h2 h1)
    · exact Or.inl (h2 ▸ h1)
    · exact Or.inl (by rw [h1]; exact h2)
    · exact Or.inr ⟨h1.trans h2, strLe_trans _ _ _ hs1 hs2⟩⟩

theorem sortMTs_perm (l : List MT) : List.Perm (sortMTs l) l :=
  List.perm_insertionSort mtLe l

theorem sortMTs_sorted (l : List MT) : List.Sorted mtLe (sortMTs l) :=
  List.sorted_insertionSort mtLe l

theorem sortMTs_of_sorted {l : List MT} (h : List.Sorted mtLe l) : sortMTs l = l :=
  h.insertionSort_eq

theorem parseAcceptGo_length : ∀ (n : Nat) (l : List Char), (parseAcceptGo n l).length ≤ n := by
  intro n
  induction n with
  | zero => intro l; simp [parseAcceptGo]
  | succ n ih =>
    intro l
    unfold parseAcceptGo
    split_ifs with hl
    · simp
    · cases hm : parseMediaType l with
      | none => simp
      | some v =>
        obtain ⟨rest, ty, q⟩ := v
        simp only [List.length_cons]
        exact Nat.succ_le_succ (ih rest)

theorem parseAcceptGo_ty_WF :
    ∀ (fuel : Nat) (l : List Char) (e : MT), e ∈ parseAcceptGo fuel l → WFty e.ty := by
  intro fuel
  induction fuel with
  | zero => intro l e he; simp [parseAcceptGo] at he
  | succ n ih =>
    intro l e he
    unfold parseAcceptGo at he
    split_ifs at he with hl
    · simp at he
    · cases hm : parseMediaType l with
      | none => rw [hm] at he; simp at he
      | some v =>
        obtain ⟨rest, ty, q⟩ := v
        rw [hm] at he
        rcases List.mem_cons.mp he with h1 | h2
        · subst h1
          exact parseMediaType_ty_WF hm
        · exact ih rest e h2

theorem parseAccept_ty_WF (h : List Char) : ∀ e ∈ parseAccept h, WFty e.ty :=
  fun e he => parseAcceptGo_ty_WF 64 h e he

/-- Core of the amended idempotence claim: canonicalization is idempotent
whenever every parsed quality is an exact multiple of 1/10 (so that the
`%.1f` serialization round-trips). -/
theorem vmodCanonicalize_idem_of_tenths (h : List Char)
    (hQ : ∀ e ∈ parseAccept h, ∃ k : Nat, k ≤ 10 ∧ e.q = (k : ℚ) / 10) :
    vmodCanonicalize (vmodCanonicalize h) = vmodCanonicalize h := by
  by_cases hh : h = []
  · subst hh
    rfl
  · have hch : vmodCanonicalize h = buildAcceptString (sortMTs (parseAccept h)) := by
      unfold vmodCanonicalize
      rw [if_neg hh]
    have hXperm := sortMTs_perm (parseAccept h)
    have hWFX : ∀ e ∈ sortMTs (parseAccept h), WFty e.ty :=
      fun e he => parseAccept_ty_WF h e (hXperm.mem_iff.mp he)
    have hQX : ∀ e ∈ sortMTs (parseAccept h), ∃ k : Nat, k ≤ 10 ∧ e.q = (k : ℚ) / 10 :=
      fun e he => hQ e (hXperm.mem_iff.mp he)
    have hlen : (sortMTs (parseAccept h)).length ≤ 64 := by
      rw [hXperm.length_eq]
      exact parseAcceptGo_length 64 h
    cases hX : sortMTs (parseAccept h) with
    | nil =>
      rw [hch, hX]
      rfl
    | cons e r =>
      have hbne : buildAcceptString (sortMTs (parseAccept h)) ≠ [] := by
        rw [hX]
        exact buildAcceptString_ne_nil r (hWFX e (hX ▸ List.mem_cons_self e r)).1
      rw [hch]
      unfold vmodCanonicalize
      rw [if_neg hbne]
      have hrt : parseAccept (buildAcceptString (sortMTs (parseAccept h))) =
          sortMTs (parseAccept h) :=
        parseAcceptGo_build (sortMTs (parseAccept h)) 64 hlen hWFX hQX
      rw [hrt, sortMTs_of_sorted (sortMTs_sorted (parseAccept h))]

/-! ### Lemmas for the malformed-quality and empty-segment behavior -/

theorem strtod_noconv {l : List Char} (h : strtodNoConv l) : strtod l = (0, l) := by
  unfold strtodNoConv at h
  unfold strtod
  dsimp only
  rw [if_pos (And.intro h.1 h.2.1)]

theorem dropWhile_isWs_idem (l : List Char) :
    (l.dropWhile isWs).dropWhile isWs = l.dropWhile isWs := by
  cases hd : l.dropWhile isWs with
  | nil => rfl
  | cons c r =>
    have hc : isWs c = false := head?_dropWhile_false (by rw [hd]; rfl)
    exact List.dropWhile_cons_of_neg (by simp [hc])

theorem strtodScan_dropWs (l : List Char) :
    strtodScan (l.dropWhile isWs) = strtodScan l := by
  unfold strtodScan
  rw [dropWhile_isWs_idem]

theorem decimalFaithful_dropWs (l : List Char) :
    decimalFaithful (l.dropWhile isWs) = decimalFaithful l := by
  unfold decimalFaithful
  rw [dropWhile_isWs_idem]

theorem strtodNoConv_dropWs {l : List Char} (h : strtodNoConv l) :
    strtodNoConv (l.dropWhile isWs) := by
  unfold strtodNoConv at h ⊢
  rw [strtodScan_dropWs, decimalFaithful_dropWs]
  exact h

theorem clampQ_zero : clampQ 0 = 0 := by
  unfold clampQ
  norm_num

/-- Malformed quality text: when `strtod` performs no conversion on the text
after `q=` (with its leading whitespace removed), the entry quality is the
clamped `strtod` return value 0.0 (not the default 1.0), provided the
unconsumed text does not itself begin with `;` (which would start another
parameter). -/
theorem parseMediaType_q_noconv (t : List Char) (hWF : WFty t) (v : List Char)
    (hnc : strtodNoConv v) (hv : (v.dropWhile isWs).head? ≠ some ';') :
    (parseMediaType (t ++ (';' :: 'q' :: '=' :: v))).map
        (fun x : List Char × List Char × ℚ => (x.2.1, x.2.2)) = some (t, 0) := by
  rw [parseMediaType_entry t hWF (';' :: 'q' :: '=' :: v) (Or.inr (Or.inl rfl))]
  have hpp : parseParams (';' :: 'q' :: '=' :: v) 1 = (v.dropWhile isWs, 0) := by
    rw [parseParams]
    simp only [List.head?_cons, List.tail_cons]
    rw [dif_pos trivial]
    rw [List.dropWhile_cons_of_neg (by decide)]
    rw [List.takeWhile_cons_of_pos (by decide), List.takeWhile_cons_of_neg (by decide)]
    rw [List.dropWhile_cons_of_pos (by decide), List.dropWhile_cons_of_neg (by decide)]
    simp only [List.head?_cons, List.tail_cons]
    rw [dif_pos trivial]
    rw [if_pos (show (List.length ['q'] = 1 ∧ toLowerAscii (['q'].headI) = 'q')
      from ⟨rfl, by decide⟩)]
    try simp only [List.tail_cons]
    rw [strtod_noconv (strtodNoConv_dropWs hnc)]
    dsimp only
    rw [clampQ_zero]
    exact parseParams_not_semi 0 hv
  rw [hpp]
  rfl

theorem parseMediaType_empty_seg (w r : List Char) (hw : ∀ c ∈ w, isWs c = true) :
    parseMediaType (w ++ ',' :: r) = none := by
  unfold parseMediaType
  dsimp only
  rw [dropWhile_append_all _ hw]
  rw [List.dropWhile_cons_of_neg (by decide)]
  rw [List.takeWhile_cons_of_neg (by decide)]
  rw [if_pos (show trimTrailWs [] = [] from rfl)]

theorem parseAcceptGo_none {l : List Char} (h : parseMediaType l = none) :
    ∀ n, parseAcceptGo n l = [] := by
  intro n
  cases n with
  | zero => rfl
  | succ n =>
    unfold parseAcceptGo
    split_ifs with hl
    · rfl
    · rw [h]

theorem preferOuter_eq_find (st : List MT) :
    ∀ ps : List (List Char), preferOuter st ps = ps.find? (fun t => preferInner st t) := by
  intro ps
  induction ps with
  | nil => rfl
  | cons t ts ih =>
    unfold preferOuter
    by_cases h : preferInner st t = true
    · rw [if_pos h, List.find?_cons_of_pos _ h]
    · rw [if_neg h, List.find?_cons_of_neg _ (by simp [h]), ih]

/-! ### Resolution of `get_quality_for_type` without an exact match -/

theorem lastQD_false {p : MT → Bool} (hp : ∀ e, p e = false) :
    ∀ (st : List MT) (d : ℚ), lastQD p st d = d := by
  intro st
  induction st with
  | nil => intro d; rfl
  | cons e r ih =>
    intro d
    simp only [lastQD, List.foldl_cons, hp e, if_neg Bool.false_ne_true]
    exact ih d

/-- Wildcard resolution when no exact entry exists and the `main/*` buffer is
populated: the last-seen `main/*` quality wins, else the last-seen `*/*`
quality, else 0. -/
theorem gq_resolution (st : List MT) (t : List Char)
    (hq : ∀ e ∈ st, 0 ≤ e.q) (hne : ∀ e ∈ st, e.ty ≠ t)
    (hp1 : mkPfx t ≠ []) (hp2 : mkPfx t ≠ starStar) :
    getQualityForType st t =
      (match lastWildQ (mkPfx t) st with
       | some q => q
       | none =>
         match lastWildQ starStar st with
         | some q => q
         | none => 0) := by
  unfold getQualityForType
  rw [gqLoop_noexact t (mkPfx t) st (-1) (-1) hne]
  have hcongr : lastQD
      (fun e => decide (¬e.ty = starStar ∧ (mkPfx t ≠ [] ∧ e.ty = mkPfx t))) st (-1) =
      lastQD (fun e => decide (e.ty = mkPfx t)) st (-1) := by
    refine lastQD_congr (fun e => ?_) st (-1)
    by_cases he : e.ty = mkPfx t
    · have hst : ¬e.ty = starStar := by rw [he]; exact hp2
      simp [he, hp1, hst, hp2]
    · simp [he]
  rw [hcongr, lastQD_eq_lastWildQ, lastQD_eq_lastWildQ]
  cases hA : lastWildQ (mkPfx t) st with
  | some q1 =>
    obtain ⟨e, he, _, hqe⟩ := lastWildQ_mem _ st q1 hA
    simp only [Option.getD_some]
    rw [if_pos (hqe ▸ hq e he)]
  | none =>
    simp only [Option.getD_none]
    rw [if_neg (by norm_num)]
    cases hB : lastWildQ starStar st with
    | some q2 =>
      obtain ⟨e, he, _, hqe⟩ := lastWildQ_mem _ st q2 hB
      simp only [Option.getD_some]
      rw [if_pos (hqe ▸ hq e he)]
    | none =>
      simp only [Option.getD_none]
      rw [if_neg (by norm_num)]

/-- Wildcard resolution when no exact entry exists and the `main/*` buffer is
empty: only `*/*` entries are consulted. -/
theorem gq_star_only (st : List MT) (t : List Char)
    (hq : ∀ e ∈ st, 0 ≤ e.q) (hne : ∀ e ∈ st, e.ty ≠ t)
    (hp : mkPfx t = []) :
    getQualityForType st t =
      (match lastWildQ starStar st with
       | some q => q
       | none => 0) := by
  unfold getQualityForType
  rw [gqLoop_noexact t (mkPfx t) st (-1) (-1) hne]
  have hfalse : lastQD
      (fun e => decide (¬e.ty = starStar ∧ (mkPfx t ≠ [] ∧ e.ty = mkPfx t))) st (-1) = -1 := by
    refine lastQD_false (fun e => ?_) st (-1)
    simp [hp]
  rw [hfalse, lastQD_eq_lastWildQ]
  rw [if_neg (by norm_num)]
  cases hB : lastWildQ starStar st with
  | some q2 =>
    obtain ⟨e, he, _, hqe⟩ := lastWildQ_mem _ st q2 hB
    simp only [Option.getD_some]
    rw [if_pos (hqe ▸ hq e he)]
  | none =>
    simp only [Option.getD_none]
    rw [if_neg (by norm_num)]

theorem mkPfx_eval (main sub : List Char) (h : '/' ∉ main) :
    mkPfx (main ++ '/' :: sub) =
      if main.length < 254 then main ++ ['/', '*'] else [] := by
  unfold mkPfx
  rw [if_pos (by simp)]
  have htw : (main ++ '/' :: sub).takeWhile (fun c => decide (c ≠ '/')) = main := by
    rw [takeWhile_append_all _ (fun c hc => by
      simp only [decide_eq_true_iff]
      exact fun heq => h (heq ▸ hc))]
    rw [List.takeWhile_cons_of_neg (by simp)]
    rw [List.append_nil]
  rw [htw]

/-! ### Claim theorems -/

/-- C1 counterexample: with two `*/*` entries of qualities 0.5 then 0.2,
the lookup for `text/html` returns the LAST-seen quality 0.2, not the
first-seen 0.5 that the claim asserts. -/
theorem claim_C1_counterexample :
    vmodQuality "*/*;q=0.5, */*;q=0.2".data "text/html".data = 1 / 5 ∧
      vmodQuality "*/*;q=0.5, */*;q=0.2".data "text/html".data ≠ 1 / 2 := by
  with_unfolding_all decide

/-- C1 (amended): when no exact entry matches, each wildcard category keeps
the quality of the LAST entry seen in list order (the scan overwrites the
running value), and resolution still prefers the `main/*` category over
`*/*`, else uses whichever exists, else 0. -/
theorem claim_C1_theorem (st : List MT) (t : List Char)
    (hq : ∀ e ∈ st, 0 ≤ e.q) (hne : ∀ e ∈ st, e.ty ≠ t)
    (hp1 : mkPfx t ≠ []) (hp2 : mkPfx t ≠ starStar) :
    getQualityForType st t =
      (match lastWildQ (mkPfx t) st with
       | some q => q
       | none =>
         match lastWildQ starStar st with
         | some q => q
         | none => 0) :=
  gq_resolution st t hq hne hp1 hp2

/-- C1 witness: the amended theorem at a concrete state with duplicate
wildcard entries. -/
theorem claim_C1_theorem_witness :
    getQualityForType
        [⟨"text/*".data, 1 / 2⟩, ⟨"*/*".data, 3 / 10⟩, ⟨"text/*".data, 1 / 10⟩]
        "text/html".data = 1 / 10 := by
  have h := claim_C1_theorem
    [⟨"text/*".data, 1 / 2⟩, ⟨"*/*".data, 3 / 10⟩, ⟨"text/*".data, 1 / 10⟩]
    "text/html".data
    (by with_unfolding_all decide) (by with_unfolding_all decide)
    (by decide) (by decide)
  rw [h]
  with_unfolding_all decide

/-- C2 counterexample: `canonicalize("a/a;q=0.96")` serializes the quality as
`;q=1.0` (one-decimal rounding), and canonicalizing again drops the
parameter entirely, so canonicalize is not idempotent. -/
theorem claim_C2_counterexample :
    vmodCanonicalize (vmodCanonicalize "a/a;q=0.96".data) ≠
      vmodCanonicalize "a/a;q=0.96".data := by
  with_unfolding_all decide

/-- C2 (amended): canonicalize is idempotent for every header whose `q=`
value texts are plain decimal numerals (`parseAcceptFaithful`: no
hexadecimal-float and no `inf`/`nan` forms, on which libc `strtod` would
diverge from the decimal model) and whose parsed qualities are exact
multiples of 1/10 (the values that survive the one-decimal `%.1f`
serialization); rounding of other qualities can change the serialized
value, which a second canonicalization then re-ranks. -/
theorem claim_C2_theorem (h : List Char)
    (hF : parseAcceptFaithful h = true)
    (hQ : ∀ e ∈ parseAccept h, ∃ k : Nat, k ≤ 10 ∧ e.q = (k : ℚ) / 10) :
    vmodCanonicalize (vmodCanonicalize h) = vmodCanonicalize h :=
  vmodCanonicalize_idem_of_tenths h hQ

/-- C2 witness: idempotence at the spec round-trip example. -/
theorem claim_C2_theorem_witness :
    vmodCanonicalize (vmodCanonicalize
        "text/html, application/xhtml+xml;q=0.9, */*;q=0.8".data) =
      vmodCanonicalize "text/html, application/xhtml+xml;q=0.9, */*;q=0.8".data := by
  refine claim_C2_theorem _ (by with_unfolding_all decide) (fun e he => ?_)
  have hp : parseAccept "text/html, application/xhtml+xml;q=0.9, */*;q=0.8".data =
      [⟨"text/html".data, 1⟩, ⟨"application/xhtml+xml".data, 9 / 10⟩,
        ⟨"*/*".data, 4 / 5⟩] := by
    with_unfolding_all decide
  rw [hp] at he
  simp only [List.mem_cons, List.not_mem_nil, or_false] at he
  rcases he with rfl | rfl | rfl
  · exact ⟨10, by norm_num⟩
  · exact ⟨9, by norm_num⟩
  · exact ⟨8, by norm_num⟩

/-- C3 counterexample: unparseable quality text yields quality 0.0 (the
`strtod` no-conversion return value, clamped), not the claimed default 1.0;
the unconsumed text then even starts a spurious extra entry. -/
theorem claim_C3_counterexample :
    vmodQuality "text/html;q=abc".data "text/html".data = 0 ∧
      parseAccept "text/html;q=abc".data =
        [⟨"text/html".data, 0⟩, ⟨"abc".data, 1⟩] ∧
      (0 : ℚ) ≠ 1 := by
  with_unfolding_all decide

/-- C3 (amended): for any well-formed type token and any `q=` value text on
which `strtod` performs no conversion (and whose whitespace-trimmed form
does not start a new `;` parameter), the parsed entry's quality is 0.0 —
`quality = strtod(...)` overwrites the 1.0 default with strtod's 0.0
no-conversion return, which clamping keeps at 0. -/
theorem claim_C3_theorem (t : List Char) (hWF : WFty t) (v : List Char)
    (hnc : strtodNoConv v) (hv : (v.dropWhile isWs).head? ≠ some ';') :
    (parseMediaType (t ++ (';' :: 'q' :: '=' :: v))).map
        (fun x : List Char × List Char × ℚ => (x.2.1, x.2.2)) = some (t, 0) :=
  parseMediaType_q_noconv t hWF v hnc hv

/-- C3 witness: the amended theorem at `text/html;q=abc`. -/
theorem claim_C3_theorem_witness :
    (parseMediaType ("text/html".data ++ (';' :: 'q' :: '=' :: "abc".data))).map
        (fun x : List Char × List Char × ℚ => (x.2.1, x.2.2)) =
      some ("text/html".data, 0) :=
  claim_C3_theorem "text/html".data (by decide) "abc".data (by decide) (by decide)

/-- C4 counterexample: in `text/html,,image/png` the empty middle segment
stops parsing entirely — `image/png` is lost, contradicting the claim that
later well-formed segments still appear. -/
theorem claim_C4_counterexample :
    parseAccept "text/html,,image/png".data = [⟨"text/html".data, 1⟩] ∧
      "image/png".data ∉ (parseAccept "text/html,,image/png".data).map MT.ty := by
  with_unfolding_all decide

/-- C4 (amended): a comma-segment that yields an empty type token makes
`parse_media_type` return NULL, and that terminates the whole parse loop:
the empty segment and ALL later segments are excluded, as the concrete
example shows. -/
theorem claim_C4_theorem :
    (∀ w r : List Char, (∀ c ∈ w, isWs c = true) →
        parseMediaType (w ++ ',' :: r) = none) ∧
      (∀ (l : List Char) (n : Nat), parseMediaType l = none → parseAcceptGo n l = []) ∧
      parseAccept "text/html,,image/png".data = [⟨"text/html".data, 1⟩] := by
  refine ⟨parseMediaType_empty_seg, fun l n h => parseAcceptGo_none h n, ?_⟩
  with_unfolding_all decide

/-- C4 witness: the two quantified parts of the amended theorem at concrete
inputs. -/
theorem claim_C4_theorem_witness :
    parseMediaType ((' ' :: []) ++ ',' :: "x".data) = none ∧
      parseAcceptGo 7 ",image/png".data = [] := by
  constructor
  · exact claim_C4_theorem.1 [' '] "x".data (by decide)
  · exact claim_C4_theorem.2.1 ",image/png".data 7 (by with_unfolding_all decide)

/-- C5 counterexample: with an absent header, filter returns the first
preferred type lower-cased (and trimmed), not the verbatim substring. -/
theorem claim_C5_counterexample :
    vmodFilter [] "TEXT/HTML".data = "text/html".data ∧
      vmodFilter [] "TEXT/HTML".data ≠ "TEXT/HTML".data := by
  with_unfolding_all decide

/-- C5 (amended): with a null/empty header and non-empty preferred string,
filter returns the FIRST ELEMENT OF THE PARSED preferred list — the first
non-empty comma-segment, whitespace-trimmed and lower-cased — or the empty
string when the preferred string parses to no entries; not the verbatim
substring of the argument. -/
theorem claim_C5_theorem (pref : List Char) (hp : pref ≠ []) :
    vmodFilter [] pref =
      (match parsePreferred pref with
       | [] => []
       | t :: _ => t) := by
  unfold vmodFilter
  rw [if_neg hp, if_pos rfl]

/-- C5 witness: the amended theorem at a concrete preferred list with
leading whitespace and upper-case letters. -/
theorem claim_C5_theorem_witness :
    vmodFilter [] " Text/HTML , image/png".data = "text/html".data := by
  have h := claim_C5_theorem " Text/HTML , image/png".data (by decide)
  rw [h]
  with_unfolding_all decide

/-- C6: with a non-empty header and preferred list, best_match returns the
preferred type at the first index attaining the maximum matcher-accepted
quality: no other index has a strictly greater quality, and every earlier
index has a strictly smaller one (ties keep the earliest, because
replacement requires a strict improvement over the running best that starts
at the -1 sentinel); in particular, when every preferred type scores 0 the
first preferred type is still returned. -/
theorem claim_C6_theorem (h pref : List Char) (hh : h ≠ [])
    (hp : parsePreferred pref ≠ []) :
    (∃ i, i < (parsePreferred pref).length ∧
      vmodBestMatch h pref = (parsePreferred pref).getD i [] ∧
      (∀ j, j < (parsePreferred pref).length →
        maxQualFor (parseAccept h) ((parsePreferred pref).getD j []) ≤
          maxQualFor (parseAccept h) ((parsePreferred pref).getD i [])) ∧
      (∀ j, j < i →
        maxQualFor (parseAccept h) ((parsePreferred pref).getD j []) <
          maxQualFor (parseAccept h) ((parsePreferred pref).getD i []))) ∧
    ((∀ j, j < (parsePreferred pref).length →
        maxQualFor (parseAccept h) ((parsePreferred pref).getD j []) = 0) →
      vmodBestMatch h pref = (parsePreferred pref).getD 0 []) := by
  cases hps : parsePreferred pref with
  | nil => exact absurd hps hp
  | cons t0 ts =>
    have hbm : vmodBestMatch h pref =
        (match bmLoop (parseAccept h) (t0 :: ts) none (-1) with
         | some t => t
         | none => t0) := by
      unfold vmodBestMatch
      rw [hps]
      dsimp only
      rw [if_neg hh]
    have hex : ∃ u ∈ t0 :: ts, (-1 : ℚ) < maxQualFor (parseAccept h) u :=
      ⟨t0, List.mem_cons_self t0 ts,
        lt_of_lt_of_le (by norm_num) (maxQualFor_nonneg _ _)⟩
    obtain ⟨i, hi, heq, _, hmax, hfirst⟩ :=
      bmLoop_exists_gt (parseAccept h) (t0 :: ts) none (-1) hex
    constructor
    · exact ⟨i, hi, by rw [hbm, heq], hmax, hfirst⟩
    · intro hall
      have hi0 : i = 0 := by
        by_contra h0
        have h1 : 0 < i := Nat.pos_of_ne_zero h0
        have h2 := hfirst 0 h1
        rw [hall 0 (by simp), hall i hi] at h2
        exact lt_irrefl 0 h2
      rw [hbm, heq, hi0]

/-- C6 witness: the second preferred type has the strictly highest quality
and is selected. -/
theorem claim_C6_theorem_witness :
    vmodBestMatch "text/html;q=0.5, application/json;q=0.9".data
      "text/html, application/json".data = "application/json".data := by
  obtain ⟨⟨i, hi, heq, hmax, _⟩, _⟩ :=
    claim_C6_theorem "text/html;q=0.5, application/json;q=0.9".data
      "text/html, application/json".data (by decide) (by with_unfolding_all decide)
  have hlen : (parsePreferred "text/html, application/json".data).length = 2 := by
    with_unfolding_all decide
  rw [hlen] at hi
  interval_cases i
  · exfalso
    have h2 := hmax 1 (by rw [hlen]; norm_num)
    revert h2
    with_unfolding_all decide
  · rw [heq]
    with_unfolding_all decide

/-- C7 (code bug): the clamp of `parse_media_type` (lines 144-147),
transcribed verbatim over the full C double domain, maps every finite value
and both infinities into [0, 1] — but passes NaN through unchanged, because
both of its comparisons are false when the operand is NaN.  libc `strtod`
converts the token `nan` to NaN, so `quality("text/html;q=nan",
"text/html")` returns NaN via the exact match, outside the claimed interval
[0, 1] and contradicting the code's own field comment `double quality;
0.0 to 1.0, default 1.0` (line 26).  On the rational fragment the claim's
concrete examples do hold: `q=5` clamps to 1 and `q=-3` clamps to 0. -/
theorem claim_C7_theorem :
    clampC CDouble.nan = CDouble.nan ∧
      ¬ inUnitRange (clampC CDouble.nan) ∧
      (∀ q : ℚ, inUnitRange (clampC (CDouble.fin q))) ∧
      clampC CDouble.pinf = CDouble.fin 1 ∧
      clampC CDouble.minf = CDouble.fin 0 ∧
      vmodQuality "text/html;q=5".data "text/html".data = 1 ∧
      vmodQuality "text/html;q=-3".data "text/html".data = 0 := by
  refine ⟨rfl, fun hx => hx, fun q => ?_, by with_unfolding_all decide,
    by with_unfolding_all decide, by with_unfolding_all decide,
    by with_unfolding_all decide⟩
  by_cases h1 : q < 0
  · have hc : clampC (CDouble.fin q) = CDouble.fin 0 := by
      simp [clampC, cLt_fin, h1]
    rw [hc]
    exact ⟨le_refl 0, by norm_num⟩
  · by_cases h2 : (1 : ℚ) < q
    · have hc : clampC (CDouble.fin q) = CDouble.fin 1 := by
        simp [clampC, cLt_fin, h1, h2]
      rw [hc]
      exact ⟨by norm_num, le_refl 1⟩
    · have hc : clampC (CDouble.fin q) = CDouble.fin q := by
        simp [clampC, cLt_fin, h1, h2]
      rw [hc]
      push_neg at h1 h2
      exact ⟨h1, h2⟩

/-- C8: an exact type match returns that entry's quality at its first
occurrence, overriding any wildcard regardless of order or value; the
spec's concrete wildcard-precedence example evaluates to 0.9. -/
theorem claim_C8_theorem :
    (∀ (st : List MT) (t : List Char) (e : MT),
        st.find? (fun x => decide (x.ty = t)) = some e →
        getQualityForType st t = e.q) ∧
      vmodQuality "text/*;q=0.5, */*;q=0.1, text/html;q=0.9".data
        "text/html".data = 9 / 10 := by
  constructor
  · intro st t e hf
    exact gqLoop_exact t (mkPfx t) st (-1) (-1) e hf
  · with_unfolding_all decide

/-- C8 witness: the first of two exact entries wins, whatever follows. -/
theorem claim_C8_theorem_witness :
    getQualityForType [⟨"a/b".data, 3 / 10⟩, ⟨"a/b".data, 7 / 10⟩]
      "a/b".data = 3 / 10 := by
  have h := claim_C8_theorem.1 [⟨"a/b".data, 3 / 10⟩, ⟨"a/b".data, 7 / 10⟩]
    "a/b".data ⟨"a/b".data, 3 / 10⟩ (by with_unfolding_all decide)
  rw [h]

/-- C9: prefer returns the first preferred type for which some header entry
matches (pattern = header entry, concrete = preferred type) with quality
strictly above 0, and otherwise returns the original header string
unchanged; the spec's pass-through example holds. -/
theorem claim_C9_theorem :
    (∀ h pref : List Char, h ≠ [] →
      vmodPrefer h pref =
        ((parsePreferred pref).find? (fun t =>
          (parseAccept h).any (fun e =>
            mediaTypeMatch e.ty t && decide (0 < e.q)))).getD h) ∧
      vmodPrefer "text/plain;q=0.8".data "application/json".data =
        "text/plain;q=0.8".data := by
  constructor
  · intro h pref hh
    unfold vmodPrefer
    rw [if_neg hh]
    cases hps : parsePreferred pref with
    | nil => rfl
    | cons t0 ts =>
      dsimp only
      rw [preferOuter_eq_find]
      simp only [preferInner_eq_any]
      cases hf : (t0 :: ts).find? (fun t =>
          (parseAccept h).any (fun e => mediaTypeMatch e.ty t && decide (0 < e.q))) with
      | none => rfl
      | some t => rfl
  · with_unfolding_all decide

/-- C9 witness: the first accepted preferred type is returned. -/
theorem claim_C9_theorem_witness :
    vmodPrefer "text/plain;q=0.8".data "text/html, text/plain".data =
      "text/plain".data := by
  have h := claim_C9_theorem.1 "text/plain;q=0.8".data
    "text/html, text/plain".data (by decide)
  rw [h]
  with_unfolding_all decide

/-- C10: when the concrete type's main component is 254 bytes or longer the
`type_prefix` buffer stays empty, so `main/*` entries are never tracked and
the lookup falls through to the last `*/*` quality (else 0.0), even if a
matching `main/*` entry is present; for a main component shorter than 254
bytes the `main/*` category works normally. -/
theorem claim_C10_theorem (st : List MT) (main sub : List Char)
    (hnos : '/' ∉ main)
    (hq : ∀ e ∈ st, 0 ≤ e.q)
    (hne : ∀ e ∈ st, e.ty ≠ main ++ '/' :: sub) :
    (254 ≤ main.length →
      getQualityForType st (main ++ '/' :: sub) =
        (match lastWildQ starStar st with
         | some q => q
         | none => 0)) ∧
    (main.length < 254 → main ≠ ['*'] →
      getQualityForType st (main ++ '/' :: sub) =
        (match lastWildQ (main ++ ['/', '*']) st with
         | some q => q
         | none =>
           match lastWildQ starStar st with
           | some q => q
           | none => 0)) := by
  constructor
  · intro hlong
    refine gq_star_only st _ hq hne ?_
    rw [mkPfx_eval main sub hnos, if_neg (by omega)]
  · intro hshort hstar
    have hpfx : mkPfx (main ++ '/' :: sub) = main ++ ['/', '*'] := by
      rw [mkPfx_eval main sub hnos, if_pos hshort]
    have h1 : mkPfx (main ++ '/' :: sub) ≠ [] := by
      rw [hpfx]
      simp
    have h2 : mkPfx (main ++ '/' :: sub) ≠ starStar := by
      rw [hpfx]
      intro hcontra
      apply hstar
      have : main ++ ['/', '*'] = ['*'] ++ ['/', '*'] := hcontra
      exact (List.append_left_inj _).mp this
    have := gq_resolution st (main ++ '/' :: sub) hq hne h1 h2
    rw [hpfx] at this
    exact this

set_option maxRecDepth 10000 in
/-- C10 witness: a 254-byte main component ignores its own `main/*` entry
and falls through to `*/*`. -/
theorem claim_C10_theorem_witness :
    getQualityForType
      [⟨List.replicate 254 'a' ++ ['/', '*'], 1 / 2⟩, ⟨"*/*".data, 3 / 10⟩]
      (List.replicate 254 'a' ++ '/' :: "b".data) = 3 / 10 := by
  have h := (claim_C10_theorem
    [⟨List.replicate 254 'a' ++ ['/', '*'], 1 / 2⟩, ⟨"*/*".data, 3 / 10⟩]
    (List.replicate 254 'a') "b".data
    (by decide) (by with_unfolding_all decide) (by decide)).1 (by simp)
  rw [h]
  with_unfolding_all decide
